import Mathlib

set_option maxHeartbeats 1000000

namespace Syntect

/-! Shallow embedding of the incremental syntax parser core of this
repository (`src/parsing/parser.rs`).  The context graph, scope type and
the regex engine are external collaborators of that file (see the spec,
sections 1 and 6); they are modelled from the spec: scopes are opaque
identifiers, contexts live in an arena indexed by `ContextId`, and a
regex is abstracted by its "does it match at this position" function,
with the engine's search trying successive start positions (leftmost
match) and engine errors folded into "no match". -/

/-- An opaque identifier for a dotted semantic label such as `source.ruby`. -/
abbrev Scope := Nat

/-- Modelled from the spec: a `Clear` hides the top n scopes, or all of them. -/
inductive ClearAmount
  | topN (n : Nat)
  | all
deriving DecidableEq

/-- The scope stack operations emitted by the parser. -/
inductive ScopeStackOp
  | push (s : Scope)
  | pop (n : Nat)
  | clear (a : ClearAmount)
  | restore
deriving DecidableEq

/-- Modelled from the spec: contexts form an arena with stable indices and
a context reference is an index plus a resolver. -/
abbrev ContextId := Nat

/-- The stack operation attached to a match pattern. -/
inductive MatchOperation
  | none
  | push (refs : List ContextId)
  | set (refs : List ContextId)
  | pop
deriving DecidableEq

/-- `true` exactly for `Push(..)`; mirrors `if let MatchOperation::Push(_)`. -/
def MatchOperation.isPush : MatchOperation → Bool
  | .push _ => true
  | _ => false

/-- Capture group positions of one regex match (the engine's `Region`):
group `i` occupies the byte range `groups[i]`; group 0 is the whole match. -/
structure Region where
  groups : List (Option (Nat × Nat))
deriving DecidableEq

/-- `Region::pos(i)`. -/
def Region.pos (r : Region) (i : Nat) : Option (Nat × Nat) :=
  r.groups.getD i Option.none

/-- `regions.pos(0).unwrap()`; the parser only evaluates this on regions
that have a whole-match group, where the default is irrelevant. -/
def Region.pos0 (r : Region) : Nat × Nat :=
  (r.pos 0).getD (0, 0)

/-- Modelled from the spec: a compiled regex, abstracted by the function
telling whether it matches when anchored at a byte position of a line. -/
structure Regex where
  matchAt : String → Nat → Option Region

/-- A regex that never matches (used as the default pattern's regex). -/
def Regex.never : Regex := ⟨fun _ _ => Option.none⟩

/-- Scan positions `p, p+1, ...` for `fuel` steps looking for a match. -/
def Regex.searchAux (r : Regex) (line : String) : Nat → Nat → Option Region
  | _, 0 => Option.none
  | p, fuel + 1 =>
    match r.matchAt line p with
    | some reg => some reg
    | Option.none => r.searchAux line (p + 1) fuel

/-- Modelled from the spec: `search(regex, line, start, line.len(), ..)` of
the regex adapter — the leftmost match at or after `start`, searching up to
the end of the line.  An engine failure is already folded into `matchAt`
returning `none`. -/
def Regex.searchFrom (r : Regex) (line : String) (start : Nat) : Option Region :=
  r.searchAux line start (line.length + 1 - start)

/-- A match rule of a context (`MatchPattern` of the graph).  The lazily
compiled regex of the source is modelled as already available; a pattern
whose compilation fails is one whose regex never matches. -/
structure MatchPattern where
  has_captures : Bool
  regex : Regex
  compile_with_refs : Region → String → Regex
  scope : List Scope
  captures : Option (List (Nat × List Scope))
  operation : MatchOperation
  with_prototype : Option ContextId

instance : Inhabited MatchPattern :=
  ⟨⟨false, Regex.never, fun _ _ => Regex.never, [], Option.none,
    MatchOperation.none, Option.none⟩⟩

/-- A node of the context graph.  `iterPairs` is modelled from the spec:
the graph exposes each context's patterns, recursively flattening
`include` targets in declaration order, as a flat iterator yielding
`(owning_context, pattern_index)` pairs. -/
structure Context where
  meta_scope : List Scope
  meta_content_scope : List Scope
  clear_scopes : Option ClearAmount
  uses_backrefs : Bool
  prototype : Option ContextId
  patterns : List MatchPattern
  iterPairs : List (ContextId × Nat)

instance : Inhabited Context :=
  ⟨⟨[], [], Option.none, false, Option.none, [], []⟩⟩

/-- The compiled syntax graph together with its designated start context. -/
structure SyntaxGraph where
  contexts : List Context
  startId : ContextId

/-- Resolve a context reference (arena lookup). -/
def SyntaxGraph.ctx (g : SyntaxGraph) (i : ContextId) : Context :=
  g.contexts.getD i default

/-- `context.match_at(pat_index)`. -/
def SyntaxGraph.patAt (g : SyntaxGraph) (c : ContextId) (i : Nat) : MatchPattern :=
  (g.ctx c).patterns.getD i default

/-- `context_iter(ctx)` — the flat `(owning_context, pattern_index)` iterator. -/
def context_iter (g : SyntaxGraph) (c : ContextId) : List (ContextId × Nat) :=
  (g.ctx c).iterPairs

/-- One frame of the parse stack (`StateLevel`). -/
structure StateLevel where
  context : ContextId
  prototype : Option ContextId
  captures : Option (Region × String)
deriving DecidableEq

/-- Default frame; only used as the `getLastD` fallback where the source
indexes `stack[stack.len() - 1]`. -/
def dfltLevel : StateLevel := ⟨0, Option.none, Option.none⟩

/-- The session state (`ParseState`).  The stack is stored bottom first,
mirroring the `Vec` of the source (`push`/`pop` act on the end). -/
structure ParseState where
  stack : List StateLevel
  first_line : Bool
  proto_starts : List Nat
deriving DecidableEq

/-- `ParseState::new`: a single frame referring to the start context. -/
def ParseState.new (g : SyntaxGraph) : ParseState :=
  ⟨[⟨g.startId, Option.none, Option.none⟩], true, []⟩

/-- The per-line search cache, keyed by pattern identity.  In the source
the key is the `*const MatchPattern` address; two patterns alias exactly
when they are the same entry of the same context, so the key is modelled
as the `(owning_context, pattern_index)` pair. -/
abbrev CacheKey := ContextId × Nat

abbrev SearchCache := List (CacheKey × Option Region)

def cacheLookup : SearchCache → CacheKey → Option (Option Region)
  | [], _ => Option.none
  | e :: rest, key => if e.1 = key then some e.2 else cacheLookup rest key

/-- `HashMap::insert` (an earlier binding for the key is shadowed). -/
def cacheInsert (cache : SearchCache) (key : CacheKey) (v : Option Region) :
    SearchCache :=
  (key, v) :: cache

/-- The `does_something` filter of `ParseState::search`: empty matches with
no stack effect are discarded. -/
def does_something (pat : MatchPattern) (match_start match_end : Nat) : Bool :=
  match pat.operation with
  | MatchOperation.none => decide (match_start ≠ match_end)
  | _ => true

/-- The non-cache path of `ParseState::search`: derive a back-reference
substituted regex when applicable, run the engine search, apply the
`does_something` filter and update the cache. -/
def searchFresh (line : String) (start : Nat) (key : CacheKey)
    (pat : MatchPattern) (captures : Option (Region × String))
    (cache : SearchCache) : Option Region × SearchCache :=
  let refs_regex : Option Regex :=
    if pat.has_captures then
      captures.map (fun rs => pat.compile_with_refs rs.1 rs.2)
    else Option.none
  let regex := refs_regex.getD pat.regex
  match regex.searchFrom line start with
  | some region =>
    if does_something pat region.pos0.1 region.pos0.2 then
      (some region,
        if refs_regex.isNone then cacheInsert cache key (some region) else cache)
    else (Option.none, cache)
  | Option.none =>
    (Option.none,
      if refs_regex.isNone then cacheInsert cache key Option.none else cache)

/-- `ParseState::search`: consult the per-line cache first, otherwise
search afresh. -/
def search (line : String) (start : Nat) (key : CacheKey)
    (pat : MatchPattern) (captures : Option (Region × String))
    (cache : SearchCache) : Option Region × SearchCache :=
  match cacheLookup cache key with
  | some (some region) =>
    if start ≤ region.pos0.1 then (some region, cache)
    else searchFresh line start key pat captures cache
  | some Option.none => (Option.none, cache)
  | Option.none => searchFresh line start key pat captures cache

/-- `ParseState::search` with the memoization removed; the reference point
for the cache-transparency claim. -/
def search_uncached (line : String) (start : Nat) (pat : MatchPattern)
    (captures : Option (Region × String)) : Option Region :=
  let refs_regex : Option Regex :=
    if pat.has_captures then
      captures.map (fun rs => pat.compile_with_refs rs.1 rs.2)
    else Option.none
  let regex := refs_regex.getD pat.regex
  match regex.searchFrom line start with
  | some region =>
    if does_something pat region.pos0.1 region.pos0.2 then some region
    else Option.none
  | Option.none => Option.none

/-- The winning match record (`RegexMatch`). -/
structure RegexMatch where
  regions : Region
  context : ContextId
  pat_index : Nat
  from_with_prototype : Bool
  would_loop : Bool
deriving DecidableEq

/-- One entry of the flattened visit order of `find_best_match`:
a pattern together with the captures and `from_with_prototype` flag of the
context-chain element it came from. -/
structure Candidate where
  from_with_prototype : Bool
  ctxId : ContextId
  patIndex : Nat
  captures : Option (Region × String)
deriving DecidableEq

/-- The context chain of `find_best_match`: `with_prototype` frames from
`proto_starts.last()` (default 0) bottom to top, then the top context's
own prototype, then the top context itself. -/
def contextChain (g : SyntaxGraph) (ps : ParseState) :
    List (Bool × ContextId × Option (Region × String)) :=
  let cur_level := ps.stack.getLastD dfltLevel
  let prototype := (g.ctx cur_level.context).prototype
  let proto_start := ps.proto_starts.getLastD 0
  let with_prototypes := (ps.stack.drop proto_start).filterMap
    (fun lvl => lvl.prototype.map (fun c => (true, c, lvl.captures)))
  let cur_prototype :=
    match prototype with
    | some c => [(false, c, (Option.none : Option (Region × String)))]
    | Option.none => []
  let cur_context := [(false, cur_level.context, cur_level.captures)]
  with_prototypes ++ cur_prototype ++ cur_context

/-- The flattened candidate list visited by `find_best_match`. -/
def candidatesOf (g : SyntaxGraph) (ps : ParseState) : List Candidate :=
  (contextChain g ps).flatMap (fun t =>
    (context_iter g t.2.1).map (fun pc => ⟨t.1, pc.1, pc.2, t.2.2⟩))

/-- `usize::MAX`, the initial `min_start`. -/
def usizeMax : Nat := 2 ^ 64 - 1

/-- The candidate scan of `find_best_match`: keep the earliest match,
displace a same-offset best when it is a looping pop, early-exit on a
non-looping candidate matching exactly at `start`. -/
def find_best_loop (g : SyntaxGraph) (line : String) (start : Nat)
    (check_pop_loop : Bool) :
    List Candidate → SearchCache → Nat → Option RegexMatch → Bool →
    Option RegexMatch × SearchCache
  | [], cache, _, best, _ => (best, cache)
  | c :: rest, cache, min_start, best, pop_would_loop =>
    let pat := g.patAt c.ctxId c.patIndex
    match search line start (c.ctxId, c.patIndex) pat c.captures cache with
    | (some reg, cache1) =>
      let match_start := reg.pos0.1
      let match_end := reg.pos0.2
      if match_start < min_start ∨ (match_start = min_start ∧ pop_would_loop = true) then
        let consuming := decide (start < match_end)
        let pwl := check_pop_loop && !consuming &&
          decide (pat.operation = MatchOperation.pop)
        let best1 : Option RegexMatch :=
          some ⟨reg, c.ctxId, c.patIndex, c.from_with_prototype, pwl⟩
        if match_start = start ∧ pwl = false then (best1, cache1)
        else find_best_loop g line start check_pop_loop rest cache1 match_start best1 pwl
      else find_best_loop g line start check_pop_loop rest cache1 min_start best pop_would_loop
    | (Option.none, cache1) =>
      find_best_loop g line start check_pop_loop rest cache1 min_start best pop_would_loop

/-- `ParseState::find_best_match`. -/
def find_best_match (g : SyntaxGraph) (line : String) (ps : ParseState)
    (start : Nat) (cache : SearchCache) (check_pop_loop : Bool) :
    Option RegexMatch × SearchCache :=
  find_best_loop g line start check_pop_loop (candidatesOf g ps) cache usizeMax Option.none false

/-- The `proto_starts` trimming loop of `parse_next_token`: pop trailing
entries while the last one is `≥` the current stack length (written as a
drop-while on the reversed list, which removes exactly the same maximal
suffix as the source's `while .. { pop }`). -/
def trimProtoStarts (len : Nat) (l : List Nat) : List Nat :=
  (l.reverse.dropWhile (fun a => decide (len ≤ a))).reverse

/-- `i32::MIN`. -/
def i32Min : Int := -(2 ^ 31)

/-- `n as i32` (two's complement wraparound of a usize). -/
def toI32 (n : Nat) : Int := ((n : Int) + 2 ^ 31) % 2 ^ 32 - 2 ^ 31

/-- Wrapping `i32` negation (release-mode semantics of `-x`). -/
def negI32 (x : Int) : Int := (-x + 2 ^ 31) % 2 ^ 32 - 2 ^ 31

/-- The capture records of `exec_pattern`: for each capture that matched a
non-empty range, one `Push` record per scope keyed
`(cap_start, -((cap_end - cap_start) as i32))` and one `Pop` record keyed
`(cap_end, i32::MIN)`. -/
def captureRecords (reg : Region) (capture_map : List (Nat × List Scope)) :
    List ((Nat × Int) × ScopeStackOp) :=
  capture_map.flatMap (fun cs =>
    match reg.pos cs.1 with
    | some (cap_start, cap_end) =>
      if cap_start = cap_end then []
      else
        (cs.2.map (fun sc =>
          ((cap_start, negI32 (toI32 (cap_end - cap_start))), ScopeStackOp.push sc)))
        ++ [((cap_end, i32Min), ScopeStackOp.pop cs.2.length)]
    | Option.none => [])

/-- The sort key order of the capture records: lexicographic on
`(usize, i32)`, ignoring the op (the source's `a.0.cmp(&b.0)`). -/
def capKeyLE (a b : (Nat × Int) × ScopeStackOp) : Prop :=
  a.1.1 < b.1.1 ∨ (a.1.1 = b.1.1 ∧ a.1.2 ≤ b.1.2)

instance : DecidableRel capKeyLE := fun a b => by
  unfold capKeyLE; infer_instance

instance : IsTotal ((Nat × Int) × ScopeStackOp) capKeyLE :=
  ⟨by intro a b; unfold capKeyLE; omega⟩

instance : IsTrans ((Nat × Int) × ScopeStackOp) capKeyLE :=
  ⟨by intro a b c; unfold capKeyLE; omega⟩

/-- The capture block of `exec_pattern`: records stably sorted by key, then
stripped to `(offset, op)` pairs.  The source uses the standard library's
stable `sort_by`; a stable sort's output is unique, so it is modelled by a
stable insertion sort. -/
def captureOps (reg : Region) (capture_map : List (Nat × List Scope)) :
    List (Nat × ScopeStackOp) :=
  (List.insertionSort capKeyLE (captureRecords reg capture_map)).map
    (fun r => (r.1.1, r.2))

/-- The `Push`/`Set` arm of `push_meta_ops` (`is_set` selects `Set`). -/
def pushSetMetaOps (g : SyntaxGraph) (initial : Bool) (index : Nat)
    (cur_context : Context) (is_set : Bool) (context_refs : List ContextId) :
    List (Nat × ScopeStackOp) :=
  if initial then
    context_refs.flatMap (fun r =>
      let ctx := g.ctx r
      (if !is_set then
        match ctx.clear_scopes with
        | some amount => [(index, ScopeStackOp.clear amount)]
        | Option.none => []
      else []) ++
      ctx.meta_scope.map (fun s => (index, ScopeStackOp.push s)))
  else
    let repush :=
      (is_set && (!cur_context.meta_scope.isEmpty ||
        !cur_context.meta_content_scope.isEmpty)) ||
      context_refs.any (fun r =>
        let ctx := g.ctx r
        !ctx.meta_content_scope.isEmpty || (ctx.clear_scopes.isSome && is_set))
    if repush then
      let base : Nat :=
        (context_refs.map (fun r => (g.ctx r).meta_scope.length)).sum
      let num_to_pop :=
        base + (if is_set then
          cur_context.meta_content_scope.length + cur_context.meta_scope.length
        else 0)
      (if 0 < num_to_pop then [(index, ScopeStackOp.pop num_to_pop)] else []) ++
      context_refs.flatMap (fun r =>
        let ctx := g.ctx r
        (if is_set then
          match ctx.clear_scopes with
          | some amount => [(index, ScopeStackOp.clear amount)]
          | Option.none => []
        else []) ++
        ctx.meta_scope.map (fun s => (index, ScopeStackOp.push s)) ++
        ctx.meta_content_scope.map (fun s => (index, ScopeStackOp.push s)))
    else []

/-- `ParseState::push_meta_ops`. -/
def push_meta_ops (g : SyntaxGraph) (initial : Bool) (index : Nat)
    (cur_context : Context) (match_op : MatchOperation) :
    List (Nat × ScopeStackOp) :=
  match match_op with
  | MatchOperation.pop =>
    let v := if initial then cur_context.meta_content_scope else cur_context.meta_scope
    (if !v.isEmpty then [(index, ScopeStackOp.pop v.length)] else []) ++
    (if !initial && cur_context.clear_scopes.isSome then
      [(index, ScopeStackOp.restore)]
    else [])
  | MatchOperation.push context_refs =>
    pushSetMetaOps g initial index cur_context false context_refs
  | MatchOperation.set context_refs =>
    pushSetMetaOps g initial index cur_context true context_refs
  | MatchOperation.none => []

/-- The frame pushes of `perform_op`: push one frame per reference, the
pattern's `with_prototype` attached only to the last, with a captures
snapshot when back-references are in play. -/
def pushRefs (g : SyntaxGraph) (line : String) (regions : Region)
    (pat : MatchPattern) (ps : ParseState) (ctx_refs : List ContextId) :
    ParseState :=
  ctx_refs.enum.foldl (fun st ir =>
    let proto := if ir.1 = ctx_refs.length - 1 then pat.with_prototype else Option.none
    let uses_backrefs := (g.ctx ir.2).uses_backrefs ||
      (match proto with
       | some p => (g.ctx p).uses_backrefs
       | Option.none => false)
    let captures := if uses_backrefs then some (regions, line) else Option.none
    { st with stack := st.stack ++ [⟨ir.2, proto, captures⟩] }) ps

/-- `ParseState::perform_op`; returns the new state and whether the stack
changed. -/
def perform_op (g : SyntaxGraph) (line : String) (regions : Region)
    (pat : MatchPattern) (ps : ParseState) : ParseState × Bool :=
  match pat.operation with
  | MatchOperation.none => (ps, false)
  | MatchOperation.pop => ({ ps with stack := ps.stack.dropLast }, true)
  | MatchOperation.push ctx_refs => (pushRefs g line regions pat ps ctx_refs, true)
  | MatchOperation.set ctx_refs =>
    (pushRefs g line regions pat { ps with stack := ps.stack.dropLast } ctx_refs, true)

/-- `ParseState::exec_pattern`: emit initial meta ops, literal scope
pushes, sorted capture ops, the literal scope pop and trailing meta ops,
then mutate the stack. -/
def exec_pattern (g : SyntaxGraph) (line : String) (reg_match : RegexMatch)
    (level_context : Context) (ps : ParseState) :
    List (Nat × ScopeStackOp) × ParseState :=
  let match_start := reg_match.regions.pos0.1
  let match_end := reg_match.regions.pos0.2
  let pat := g.patAt reg_match.context reg_match.pat_index
  let ops1 := push_meta_ops g true match_start level_context pat.operation
  let ops2 := pat.scope.map (fun s => (match_start, ScopeStackOp.push s))
  let ops3 :=
    match pat.captures with
    | some capture_map => captureOps reg_match.regions capture_map
    | Option.none => []
  let ops4 :=
    if !pat.scope.isEmpty then [(match_end, ScopeStackOp.pop pat.scope.length)]
    else []
  let ops5 := push_meta_ops g false match_end level_context pat.operation
  let ps1 := (perform_op g line reg_match.regions pat ps).1
  (ops1 ++ ops2 ++ ops3 ++ ops4 ++ ops5, ps1)

/-- The mutable state of the `parse_line` step loop. -/
structure LoopState where
  ps : ParseState
  start : Nat
  cache : SearchCache
  non_consuming_push_at : Nat × Nat
  ops : List (Nat × ScopeStackOp)

/-- `ParseState::parse_next_token`; returns the new loop state and whether
to continue.  Indexing `stack[stack.len() - 1]` panics on an empty stack in
the source (which also ends the loop, abnormally); that case is modelled as
halting. -/
def parse_next_token (g : SyntaxGraph) (line : String) (st : LoopState) :
    LoopState × Bool :=
  let check_pop_loop :=
    decide (st.non_consuming_push_at = (st.start, st.ps.stack.length))
  let ps1 : ParseState :=
    { st.ps with
      proto_starts := trimProtoStarts st.ps.stack.length st.ps.proto_starts }
  if ps1.stack.isEmpty then ({ st with ps := ps1 }, false)
  else
    match find_best_match g line ps1 st.start st.cache check_pop_loop with
    | (some reg_match, cache1) =>
      if reg_match.would_loop then
        if st.start = line.length then ({ st with ps := ps1, cache := cache1 }, false)
        else ({ st with ps := ps1, cache := cache1, start := st.start + 1 }, true)
      else
        let match_end := reg_match.regions.pos0.2
        let pat := g.patAt reg_match.context reg_match.pat_index
        let ncpa :=
          if match_end ≤ st.start ∧ pat.operation.isPush = true then
            (match_end, ps1.stack.length + 1)
          else st.non_consuming_push_at
        let ps2 :=
          if reg_match.from_with_prototype then
            { ps1 with proto_starts := ps1.proto_starts ++ [ps1.stack.length] }
          else ps1
        let level_context := g.ctx (ps2.stack.getLastD dfltLevel).context
        let res := exec_pattern g line reg_match level_context ps2
        (⟨res.2, match_end, cache1, ncpa, st.ops ++ res.1⟩, true)
    | (Option.none, cache1) => ({ st with ps := ps1, cache := cache1 }, false)

/-- The `while parse_next_token(..) {}` loop, driven by explicit fuel; the
boolean is `true` when the loop exited by itself (rather than running out
of fuel). -/
def parseLoop (g : SyntaxGraph) (line : String) : Nat → LoopState → LoopState × Bool
  | 0, st => (st, false)
  | fuel + 1, st =>
    let r := parse_next_token g line st
    if r.2 then parseLoop g line fuel r.1 else (r.1, true)

/-- `ParseState::parse_line`; returns the emitted ops, the state after the
line and whether the step loop finished within `fuel` iterations. -/
def parse_line (g : SyntaxGraph) (fuel : Nat) (ps : ParseState) (line : String) :
    List (Nat × ScopeStackOp) × ParseState × Bool :=
  let initOps :=
    if ps.first_line then
      let cur_level := ps.stack.getLastD dfltLevel
      let context := g.ctx cur_level.context
      if !context.meta_content_scope.isEmpty then
        [(0, ScopeStackOp.push (context.meta_content_scope.headD 0))]
      else []
    else []
  let ps1 := { ps with first_line := false }
  let r := parseLoop g line fuel ⟨ps1, 0, [], (0, 0), initOps⟩
  (r.1.ops, r.1.ps, r.2)

/-- Termination of `parse_line`: some finite fuel makes the step loop
finish. -/
def ParseLineTerminates (g : SyntaxGraph) (ps : ParseState) (line : String) : Prop :=
  ∃ fuel, (parse_line g fuel ps line).2.2 = true

/-! ### Well-formedness of the external regex engine

The engine contract (spec section 6): a match at position `p` reports the
whole match as group 0 anchored at `p`, ending within the line, and every
capture group lies inside the whole match. -/

def RegexWF (r : Regex) : Prop :=
  ∀ line p reg, r.matchAt line p = some reg →
    ∃ e, reg.pos 0 = some (p, e) ∧ p ≤ e ∧ e ≤ line.length

def PatternWF (pat : MatchPattern) : Prop :=
  RegexWF pat.regex ∧ ∀ reg s, RegexWF (pat.compile_with_refs reg s)

def GraphWF (g : SyntaxGraph) : Prop :=
  ∀ c ∈ g.contexts, ∀ pat ∈ c.patterns, PatternWF pat

/-- What a successful search starting at `start` guarantees about the
returned region. -/
def MatchRegionWF (line : String) (start : Nat) (reg : Region) : Prop :=
  ∃ p e, reg.pos 0 = some (p, e) ∧ start ≤ p ∧ p ≤ e ∧ e ≤ line.length

/-- Capture containment: every reported capture group lies inside the
whole match.  This holds for plain group captures but is not part of the
engine contract: oniguruma reports captures inside lookahead or
lookbehind outside the whole match, and `exec_pattern` passes the raw
positions through unclamped. -/
def CapturesContained (r : Regex) : Prop :=
  ∀ line q reg, r.matchAt line q = some reg →
    ∀ s0 t0, reg.pos 0 = some (s0, t0) →
      ∀ i s t, reg.pos i = some (s, t) → s0 ≤ s ∧ s ≤ t ∧ t ≤ t0

def PatternContained (pat : MatchPattern) : Prop :=
  CapturesContained pat.regex ∧
  ∀ reg s, CapturesContained (pat.compile_with_refs reg s)

/-- Every regex of the graph, plain or back-reference substituted, keeps
its captures inside the whole match (no lookaround captures). -/
def GraphCapturesContained (g : SyntaxGraph) : Prop :=
  ∀ c ∈ g.contexts, ∀ pat ∈ c.patterns, PatternContained pat

/-- Provenance invariant of the per-line cache: every stored region is a
real (filter-passing) output of the key's own plain regex on this line. -/
def CacheWF (g : SyntaxGraph) (line : String) (cache : SearchCache) : Prop :=
  ∀ c i reg, cacheLookup cache (c, i) = some (some reg) →
    ∃ p, (g.patAt c i).regex.matchAt line p = some reg ∧
      does_something (g.patAt c i) reg.pos0.1 reg.pos0.2 = true

/-- A regex that never produces an empty (non-consuming) match. -/
def NeverEmptyRegex (r : Regex) : Prop :=
  ∀ line p reg, r.matchAt line p = some reg → reg.pos0.1 < reg.pos0.2

/-- Every `Push`/`Set` pattern of the graph always consumes at least one
byte when it matches. -/
def PushSetConsumes (g : SyntaxGraph) : Prop :=
  ∀ c ∈ g.contexts, ∀ pat ∈ c.patterns,
    (∃ refs, pat.operation = MatchOperation.push refs ∨
      pat.operation = MatchOperation.set refs) →
    NeverEmptyRegex pat.regex ∧ ∀ reg s, NeverEmptyRegex (pat.compile_with_refs reg s)

/-! ### Spec-side selection (for the match-selector claim) -/

/-- The search results of a candidate list, with the cache threaded exactly
as `find_best_match` threads it. -/
def searchResults (g : SyntaxGraph) (line : String) (start : Nat) :
    List Candidate → SearchCache → List (Candidate × Option Region)
  | [], _ => []
  | c :: rest, cache =>
    let r := search line start (c.ctxId, c.patIndex) (g.patAt c.ctxId c.patIndex)
      c.captures cache
    (c, r.1) :: searchResults g line start rest r.2

/-- Selection rule written from the spec's words, scanning every search
result (no early exit): the earliest match start wins; at an equal start
the current best is kept unless it is a looping pop, in which case the
newcomer displaces it — for `displaceAny = true` unconditionally, for
`displaceAny = false` (the claim's wording) only when the newcomer is
itself non-looping. -/
def selectFull (g : SyntaxGraph) (start : Nat) (check_pop_loop : Bool)
    (displaceAny : Bool) :
    List (Candidate × Option Region) → Nat → Option RegexMatch → Bool →
    Option RegexMatch
  | [], _, best, _ => best
  | (c, res) :: rest, min_start, best, pop_would_loop =>
    match res with
    | some reg =>
      let ms := reg.pos0.1
      let me := reg.pos0.2
      let pat := g.patAt c.ctxId c.patIndex
      let pwl := check_pop_loop && !(decide (start < me)) &&
        decide (pat.operation = MatchOperation.pop)
      if ms < min_start ∨
          (ms = min_start ∧ pop_would_loop = true ∧ (displaceAny = true ∨ pwl = false)) then
        selectFull g start check_pop_loop displaceAny rest ms
          (some ⟨reg, c.ctxId, c.patIndex, c.from_with_prototype, pwl⟩) pwl
      else selectFull g start check_pop_loop displaceAny rest min_start best pop_would_loop
    | Option.none =>
      selectFull g start check_pop_loop displaceAny rest min_start best pop_would_loop

/-! ### Queries (for the cache-transparency claim) -/

/-- One cache query: a pattern (by identity), the captures in play and the
start offset. -/
structure Query where
  key : CacheKey
  caps : Option (Region × String)
  start : Nat

/-- Run a sequence of searches through one shared per-line cache. -/
def runCached (g : SyntaxGraph) (line : String) :
    List Query → SearchCache → List (Option Region)
  | [], _ => []
  | q :: rest, cache =>
    let r := search line q.start q.key (g.patAt q.key.1 q.key.2) q.caps cache
    r.1 :: runCached g line rest r.2

/-- States of one session: freshly created, or evolved by `parse_line`. -/
inductive Reachable (g : SyntaxGraph) : ParseState → Prop
  | base : Reachable g (ParseState.new g)
  | step (ps : ParseState) (fuel : Nat) (line : String) (h : Reachable g ps) :
      Reachable g (parse_line g fuel ps line).2.1

/-! ### Op classifiers -/

def isClearOp : ScopeStackOp → Bool
  | ScopeStackOp.clear _ => true
  | _ => false

def isPushOp : ScopeStackOp → Bool
  | ScopeStackOp.push _ => true
  | _ => false

def isPopOp : ScopeStackOp → Bool
  | ScopeStackOp.pop _ => true
  | _ => false

/-! ### Concrete material for counterexamples and witnesses -/

/-- A lookahead-style regex: an empty match at every position of the line. -/
def emptyAtRegex : Regex :=
  ⟨fun line p => if p ≤ line.length then some ⟨[some (p, p)]⟩ else Option.none⟩

/-- A regex matching exactly one byte at every non-final position. -/
def oneCharRegex : Regex :=
  ⟨fun line p => if p < line.length then some ⟨[some (p, p + 1)]⟩ else Option.none⟩

def noRefs : Region → String → Regex := fun _ _ => Regex.never

def mkPattern (r : Regex) (sc : List Scope) (op : MatchOperation) : MatchPattern :=
  ⟨false, r, noRefs, sc, Option.none, op, Option.none⟩

/-- Target context with a non-empty `meta_content_scope` (for the trailing
`Push` meta-op claim). -/
def gMcs : SyntaxGraph :=
  ⟨[⟨[], [], Option.none, false, Option.none, [], []⟩,
    ⟨[], [7], Option.none, false, Option.none, [], []⟩], 0⟩

/-- Target context carrying `clear_scopes` (for the `Set` vs `Push` claim). -/
def gClr : SyntaxGraph :=
  ⟨[⟨[], [], Option.none, false, Option.none, [], []⟩,
    ⟨[], [], some (ClearAmount.topN 2), false, Option.none, [], []⟩], 0⟩

/-- One context whose single pattern is a non-consuming push of itself. -/
def gBadPush : SyntaxGraph :=
  ⟨[⟨[], [], Option.none, false, Option.none,
    [mkPattern emptyAtRegex [] (MatchOperation.push [0])], [(0, 0)]⟩], 0⟩

/-- One context with two non-consuming pop patterns (two looping pops at
the same offset). -/
def gPopLoop : SyntaxGraph :=
  ⟨[⟨[], [], Option.none, false, Option.none,
    [mkPattern emptyAtRegex [] MatchOperation.pop,
     mkPattern emptyAtRegex [] MatchOperation.pop], [(0, 0), (0, 1)]⟩], 0⟩

/-- A simple graph: start context has `meta_content_scope = [3, 4]` and one
single-byte pattern with scope 9. -/
def gOne : SyntaxGraph :=
  ⟨[⟨[], [3, 4], Option.none, false, Option.none,
    [mkPattern oneCharRegex [9] MatchOperation.none], [(0, 0)]⟩], 0⟩

/-- A regex behaving like oniguruma on `foo(?=(bar))`: whole match
`(0, 3)`, lookahead capture `(3, 6)` lying outside the whole match. -/
def lookRegex : Regex :=
  ⟨fun _ p => if p = 0 then some ⟨[some (0, 3), some (3, 6)]⟩ else Option.none⟩

/-- One context, one pattern: a literal scope plus a capture annotation
whose reported range lies beyond the whole match (a lookahead capture). -/
def gLook : SyntaxGraph :=
  ⟨[⟨[], [], Option.none, false, Option.none,
    [⟨false, lookRegex, noRefs, [9], some [(1, [5])], MatchOperation.none,
      Option.none⟩], [(0, 0)]⟩], 0⟩

/-- A loop state whose guard marker equals the current position and stack
depth, so that the pop-loop check fires. -/
def stPopLoop : LoopState :=
  ⟨⟨[⟨0, Option.none, Option.none⟩], false, []⟩, 0, [], (0, 1), []⟩

def capKept (reg : Region) (e : Nat × List Scope) : Bool :=
  match reg.pos e.1 with
  | some st => decide (st.1 ≠ st.2)
  | Option.none => false

def capRangeOK (reg : Region) (e : Nat × List Scope) : Prop :=
  match reg.pos e.1 with
  | some st => st.1 ≤ st.2 ∧ st.2 - st.1 < 2 ^ 31
  | Option.none => True

instance (reg : Region) (e : Nat × List Scope) : Decidable (capRangeOK reg e) := by
  unfold capRangeOK
  split <;> infer_instance

def regC7 : Region := ⟨[some (0, 5), some (2, 5), some (2, 5), some (0, 2), some (3, 3)]⟩

def cmC7 : List (Nat × List Scope) :=
  [(1, [11]), (2, [12]), (3, [13]), (4, [14]), (9, [99])]

/-- Cache invariant for transparency: every entry is the result of a plain
search performed at some earlier-or-equal start offset, and stored regions
passed the `does_something` filter. -/
def CacheTrans (g : SyntaxGraph) (line : String) (cur : Nat)
    (cache : SearchCache) : Prop :=
  ∀ c i v, cacheLookup cache (c, i) = some v →
    ∃ s0, s0 ≤ cur ∧ (g.patAt c i).regex.searchFrom line s0 = v ∧
      ∀ reg, v = some reg →
        does_something (g.patAt c i) reg.pos0.1 reg.pos0.2 = true

/-- Everything a successful `search` guarantees about its result: the
region is well-formed for the queried start, it passed the
`does_something` filter of its pattern, and it is a genuine output of one
of the pattern's regexes (plain or back-reference derived). -/
def SearchResultOK (g : SyntaxGraph) (line : String) (start : Nat)
    (c i : Nat) (reg : Region) : Prop :=
  MatchRegionWF line start reg ∧
  does_something (g.patAt c i) reg.pos0.1 reg.pos0.2 = true ∧
  ((∃ p, (g.patAt c i).regex.matchAt line p = some reg) ∨
    (∃ rs : Region × String, ∃ p,
      ((g.patAt c i).compile_with_refs rs.1 rs.2).matchAt line p = some reg))

/-- A concrete query sequence with non-decreasing start offsets. -/
def qsW : List Query :=
  [⟨(0, 0), Option.none, 0⟩, ⟨(0, 0), Option.none, 0⟩, ⟨(0, 0), Option.none, 1⟩]

/-- Loop-state invariant of the non-consuming push cycle: position stuck
at 0, a stack of copies of the start frame, empty proto starts, and the
cache empty or holding the one empty-match region. -/
def BadInv (st : LoopState) : Prop :=
  (∃ k, st.ps.stack =
    List.replicate (k + 1) (⟨0, Option.none, Option.none⟩ : StateLevel)) ∧
  st.ps.proto_starts = [] ∧ st.start = 0 ∧
  (st.cache = [] ∨ st.cache = [((0, 0), some ⟨[some (0, 0)]⟩)])

/-! ## Theorems -/

/-- C2 counterexample: a `Push` whose single target context has
`meta_content_scope = [7]` makes the trailing phase
(`push_meta_ops` with `initial = false`) emit a push, not nothing. -/
theorem c2_counterexample :
    push_meta_ops gMcs false 5 default (MatchOperation.push [1]) =
      [(5, ScopeStackOp.push 7)] := by decide

/-- C2 (amended): the trailing meta-op phase of a `Push(refs)` emits no
operations exactly when no pushed target context has a non-empty
`meta_content_scope`; the targets' meta scopes and `clear_scopes` alone
never produce trailing operations. -/
theorem push_trailing_meta_ops_iff (g : SyntaxGraph) (index : Nat)
    (cur : Context) (refs : List ContextId) :
    push_meta_ops g false index cur (MatchOperation.push refs) = [] ↔
      ∀ r ∈ refs, (g.ctx r).meta_content_scope = [] := by
  unfold push_meta_ops pushSetMetaOps
  simp only [Bool.false_eq_true, if_false, Bool.false_and, Bool.false_or,
    Bool.and_false, Bool.or_false, Bool.if_false_left]
  by_cases hc : refs.any (fun r => !(g.ctx r).meta_content_scope.isEmpty) = true
  · rw [if_pos hc]
    constructor
    · intro hnil
      obtain ⟨r, hr, hne⟩ := List.any_eq_true.mp hc
      exfalso
      rw [List.append_eq_nil] at hnil
      have hfm := hnil.2
      rw [List.flatMap_eq_nil_iff] at hfm
      have h3 := hfm r hr
      simp only [List.nil_append, List.append_eq_nil, List.map_eq_nil_iff] at h3
      rw [h3.2] at hne
      simp at hne
    · intro hall
      exfalso
      obtain ⟨r, hr, hne⟩ := List.any_eq_true.mp hc
      rw [hall r hr] at hne
      simp at hne
  · rw [if_neg hc]
    simp only [true_iff]
    intro r hr
    rw [Bool.not_eq_true, List.any_eq_false] at hc
    have := hc r hr
    simpa using this

/-- C2 witness: the amended equivalence evaluated on a concrete `Push`
whose targets all have empty `meta_content_scope`. -/
theorem c2_amended_witness :
    push_meta_ops gClr false 4 default (MatchOperation.push [1]) = [] :=
  (push_trailing_meta_ops_iff gClr 4 default [1]).mpr (by decide)

/-- C8: when some target of the winning match carries `clear_scopes`, a
`Set` emits its `Clear` only in the trailing phase (after the matched
token) and never in the initial phase, while a `Push` emits its `Clear`
only in the initial phase (before the matched token) and never in the
trailing phase. -/
theorem clear_scopes_phase (g : SyntaxGraph) (i1 i2 : Nat) (cur : Context)
    (refs : List ContextId)
    (h : ∃ r ∈ refs, (g.ctx r).clear_scopes.isSome = true) :
    (∀ o ∈ push_meta_ops g true i1 cur (MatchOperation.set refs),
      isClearOp o.2 = false) ∧
    (∃ o ∈ push_meta_ops g false i2 cur (MatchOperation.set refs),
      isClearOp o.2 = true) ∧
    (∃ o ∈ push_meta_ops g true i1 cur (MatchOperation.push refs),
      isClearOp o.2 = true) ∧
    (∀ o ∈ push_meta_ops g false i2 cur (MatchOperation.push refs),
      isClearOp o.2 = false) := by
  obtain ⟨r, hr, hsome⟩ := h
  obtain ⟨amt, hamt⟩ := Option.isSome_iff_exists.mp hsome
  refine ⟨?_, ?_, ?_, ?_⟩
  · intro o ho
    unfold push_meta_ops pushSetMetaOps at ho
    simp only [if_pos, Bool.not_true, Bool.false_eq_true, if_false,
      List.nil_append, List.mem_flatMap, List.mem_map] at ho
    obtain ⟨r', _, s, _, rfl⟩ := ho
    rfl
  · refine ⟨(i2, ScopeStackOp.clear amt), ?_, rfl⟩
    unfold push_meta_ops pushSetMetaOps
    simp only [Bool.true_and, Bool.and_true, Bool.false_eq_true, if_false]
    rw [if_pos]
    · apply List.mem_append_right
      rw [List.mem_flatMap]
      refine ⟨r, hr, ?_⟩
      rw [hamt]
      exact List.mem_append_left _ (List.mem_append_left _ (List.mem_singleton.mpr rfl))
    · simp only [Bool.or_eq_true, List.any_eq_true]
      right
      refine ⟨r, hr, ?_⟩
      right
      exact hsome
  · unfold push_meta_ops pushSetMetaOps
    simp only [Bool.not_false, if_pos]
    refine ⟨(i1, ScopeStackOp.clear amt), ?_, rfl⟩
    rw [List.mem_flatMap]
    refine ⟨r, hr, ?_⟩
    simp only [Bool.not_false, if_pos, hamt]
    exact List.mem_append_left _ (List.mem_singleton.mpr rfl)
  · intro o ho
    unfold push_meta_ops pushSetMetaOps at ho
    simp only [Bool.false_eq_true, if_false, Bool.false_and, Bool.false_or,
      Bool.and_false, Bool.or_false] at ho
    by_cases hc : refs.any (fun r => !(g.ctx r).meta_content_scope.isEmpty) = true
    · rw [if_pos hc] at ho
      rcases List.mem_append.mp ho with hl | hr'
      · rcases o with ⟨oi, oo⟩
        split at hl
        · rw [List.mem_singleton] at hl
          cases hl
          rfl
        · cases hl
      · rw [List.mem_flatMap] at hr'
        obtain ⟨r', _, hmem⟩ := hr'
        simp only [Bool.false_eq_true, if_false, List.nil_append,
          List.mem_append, List.mem_map] at hmem
        rcases hmem with ⟨s, _, rfl⟩ | ⟨s, _, rfl⟩ <;> rfl
    · rw [if_neg hc] at ho
      cases ho

/-- C8 witness: the phase placement of `Clear` evaluated on a concrete
`Set`/`Push` whose target context 1 has `clear_scopes = TopN 2`. -/
theorem c8_witness :
    (∃ r ∈ [1], (gClr.ctx r).clear_scopes.isSome = true) ∧
    (∃ o ∈ push_meta_ops gClr false 4 default (MatchOperation.set [1]),
      isClearOp o.2 = true) :=
  ⟨by decide, (clear_scopes_phase gClr 3 4 default [1] (by decide)).2.1⟩

/-- C5: when the best match of a step is flagged `would_loop`, the step
emits nothing and leaves the stack unchanged; at the end of the line it
terminates the line, otherwise it advances `start` by exactly one byte and
retries. -/
theorem would_loop_step (g : SyntaxGraph) (line : String) (st : LoopState)
    (m : RegexMatch) (cache1 : SearchCache)
    (hne : st.ps.stack.isEmpty = false)
    (hfb : find_best_match g line
        { st.ps with
          proto_starts := trimProtoStarts st.ps.stack.length st.ps.proto_starts }
        st.start st.cache
        (decide (st.non_consuming_push_at = (st.start, st.ps.stack.length))) =
      (some m, cache1))
    (hwl : m.would_loop = true) :
    (parse_next_token g line st).1.ops = st.ops ∧
    (parse_next_token g line st).1.ps.stack = st.ps.stack ∧
    (st.start = line.length →
      (parse_next_token g line st).2 = false ∧
      (parse_next_token g line st).1.start = st.start) ∧
    (st.start ≠ line.length →
      (parse_next_token g line st).2 = true ∧
      (parse_next_token g line st).1.start = st.start + 1) := by
  simp only [parse_next_token, hne, Bool.false_eq_true, if_false, hfb, hwl, if_true]
  by_cases hend : st.start = line.length
  · simp [hend]
  · simp [hend]

/-- C5 witness: a concrete step whose winner is a looping pop, evaluated
in the middle of the line `ab`. -/
theorem c5_witness :
    (parse_next_token gPopLoop "ab" stPopLoop).1.ops = stPopLoop.ops ∧
    (parse_next_token gPopLoop "ab" stPopLoop).1.ps.stack = stPopLoop.ps.stack ∧
    (parse_next_token gPopLoop "ab" stPopLoop).2 = true ∧
    (parse_next_token gPopLoop "ab" stPopLoop).1.start = 1 := by
  have h := would_loop_step gPopLoop "ab" stPopLoop
    ⟨⟨[some (0, 0)]⟩, 0, 1, false, true⟩
    [((0, 1), some ⟨[some (0, 0)]⟩), ((0, 0), some ⟨[some (0, 0)]⟩)]
    (by decide) (by decide) rfl
  exact ⟨h.1, h.2.1, (h.2.2.2 (by decide)).1, (h.2.2.2 (by decide)).2⟩

theorem pushRefs_keeps_flags (g : SyntaxGraph) (line : String) (regions : Region)
    (pat : MatchPattern) (ps : ParseState) (refs : List ContextId) :
    (pushRefs g line regions pat ps refs).first_line = ps.first_line ∧
    (pushRefs g line regions pat ps refs).proto_starts = ps.proto_starts := by
  unfold pushRefs
  generalize refs.enum = l
  induction l generalizing ps with
  | nil => exact ⟨rfl, rfl⟩
  | cons x xs ih =>
    rw [List.foldl_cons]
    exact ih _

theorem perform_op_keeps_flags (g : SyntaxGraph) (line : String) (regions : Region)
    (pat : MatchPattern) (ps : ParseState) :
    (perform_op g line regions pat ps).1.first_line = ps.first_line ∧
    (perform_op g line regions pat ps).1.proto_starts = ps.proto_starts := by
  unfold perform_op
  rcases hop : pat.operation with _ | refs | refs | _
  · exact ⟨rfl, rfl⟩
  · exact pushRefs_keeps_flags g line regions pat ps refs
  · exact pushRefs_keeps_flags g line regions pat _ refs
  · exact ⟨rfl, rfl⟩

theorem parse_next_token_first_line (g : SyntaxGraph) (line : String)
    (st : LoopState) :
    (parse_next_token g line st).1.ps.first_line = st.ps.first_line := by
  simp only [parse_next_token]
  split
  · rfl
  · split
    · split
      · split
        · rfl
        · rfl
      · simp only [exec_pattern]
        split <;> exact (perform_op_keeps_flags _ _ _ _ _).1
    · rfl

theorem parse_next_token_ops_append (g : SyntaxGraph) (line : String)
    (st : LoopState) :
    ∃ t, (parse_next_token g line st).1.ops = st.ops ++ t := by
  simp only [parse_next_token]
  split
  · exact ⟨[], (List.append_nil _).symm⟩
  · split
    · split
      · split
        · exact ⟨[], (List.append_nil _).symm⟩
        · exact ⟨[], (List.append_nil _).symm⟩
      · exact ⟨_, rfl⟩
    · exact ⟨[], (List.append_nil _).symm⟩

theorem parseLoop_first_line (g : SyntaxGraph) (line : String) (n : Nat)
    (st : LoopState) :
    (parseLoop g line n st).1.ps.first_line = st.ps.first_line := by
  induction n generalizing st with
  | zero => rfl
  | succ n ih =>
    unfold parseLoop
    by_cases h : (parse_next_token g line st).2
    · simp only [h, if_true]
      rw [ih]
      exact parse_next_token_first_line g line st
    · simp only [h, Bool.false_eq_true, if_false]
      exact parse_next_token_first_line g line st

theorem parseLoop_ops_append (g : SyntaxGraph) (line : String) (n : Nat)
    (st : LoopState) :
    ∃ t, (parseLoop g line n st).1.ops = st.ops ++ t := by
  induction n generalizing st with
  | zero => exact ⟨[], (List.append_nil _).symm⟩
  | succ n ih =>
    unfold parseLoop
    obtain ⟨t1, h1⟩ := parse_next_token_ops_append g line st
    by_cases h : (parse_next_token g line st).2
    · simp only [h, if_true]
      obtain ⟨t2, h2⟩ := ih (parse_next_token g line st).1
      exact ⟨t1 ++ t2, by rw [h2, h1, List.append_assoc]⟩
    · simp only [h, Bool.false_eq_true, if_false]
      exact ⟨t1, h1⟩

/-- C6: on a fresh session whose start context has a non-empty
`meta_content_scope`, the first `parse_line` emits
`(0, Push(meta_content_scope[0]))` (only the first entry) as its first
operation; `parse_line` always clears `first_line`, and any call on a
state with `first_line = false` produces exactly the step loop's output
with no prepended initial push. -/
theorem first_line_initial_push (g : SyntaxGraph) (fuel : Nat) (line : String)
    (hm : (g.ctx g.startId).meta_content_scope ≠ []) :
    (∃ rest, (parse_line g fuel (ParseState.new g) line).1 =
      (0, ScopeStackOp.push ((g.ctx g.startId).meta_content_scope.headD 0)) :: rest) ∧
    (∀ ps : ParseState, (parse_line g fuel ps line).2.1.first_line = false) ∧
    (∀ (ps : ParseState) (line2 : String), ps.first_line = false →
      (parse_line g fuel ps line2).1 =
        (parseLoop g line2 fuel
          ⟨{ ps with first_line := false }, 0, [], (0, 0), []⟩).1.ops) := by
  have hne : (g.ctx g.startId).meta_content_scope.isEmpty = false := by
    cases hl : (g.ctx g.startId).meta_content_scope with
    | nil => exact absurd hl hm
    | cons a tl => rfl
  refine ⟨?_, ?_, ?_⟩
  · obtain ⟨t, ht⟩ := parseLoop_ops_append g line fuel
      ⟨⟨[⟨g.startId, Option.none, Option.none⟩], false, []⟩, 0, [], (0, 0),
        [(0, ScopeStackOp.push ((g.ctx g.startId).meta_content_scope.headD 0))]⟩
    refine ⟨t, ?_⟩
    simp only [parse_line, ParseState.new, List.getLastD, List.getLast_singleton,
      hne, Bool.not_false, if_true]
    simpa using ht
  · intro ps
    simp only [parse_line]
    rw [parseLoop_first_line]
  · intro ps line2 hfl
    simp only [parse_line, hfl, Bool.false_eq_true, if_false]

/-- C6 witness: the first-line push evaluated on a concrete session whose
start context has `meta_content_scope = [3, 4]`. -/
theorem c6_witness :
    (∃ rest, (parse_line gOne 20 (ParseState.new gOne) "hi").1 =
      (0, ScopeStackOp.push ((gOne.ctx gOne.startId).meta_content_scope.headD 0)) :: rest) ∧
    (parse_line gOne 20 (ParseState.new gOne) "hi").2.1.first_line = false :=
  have h := first_line_initial_push gOne 20 "hi" (by decide)
  ⟨h.1, h.2.1 (ParseState.new gOne)⟩

theorem captureRecords_key_facts (reg : Region) (cm : List (Nat × List Scope))
    (hwf : ∀ e ∈ cm, capRangeOK reg e) :
    ∀ rec ∈ captureRecords reg cm,
      (isPushOp rec.2 = true → i32Min < rec.1.2) ∧
      (isPopOp rec.2 = true → rec.1.2 = i32Min) := by
  intro rec hrec
  rw [captureRecords, List.mem_flatMap] at hrec
  obtain ⟨e, he, hmem⟩ := hrec
  cases hpos : reg.pos e.1 with
  | none =>
    rw [hpos] at hmem
    dsimp only at hmem
    cases hmem
  | some st =>
    rw [hpos] at hmem
    dsimp only at hmem
    rcases st with ⟨cs, ce⟩
    by_cases heq : cs = ce
    · rw [if_pos heq] at hmem
      cases hmem
    · rw [if_neg heq] at hmem
      have hb := hwf e he
      unfold capRangeOK at hb
      rw [hpos] at hb
      obtain ⟨hle, hlt⟩ := hb
      rcases List.mem_append.mp hmem with hp | hq
      · rw [List.mem_map] at hp
        obtain ⟨sc, _, rfl⟩ := hp
        constructor
        · intro _
          have hpos' : 0 < ce - cs := by omega
          dsimp only
          unfold negI32 toI32 i32Min
          omega
        · intro hpop
          simp [isPopOp] at hpop
      · rw [List.mem_singleton] at hq
        subst hq
        refine ⟨?_, fun _ => rfl⟩
        intro h
        simp [isPushOp] at h

theorem captureRecords_filter (reg : Region) (cm : List (Nat × List Scope)) :
    captureRecords reg (cm.filter (capKept reg)) = captureRecords reg cm := by
  induction cm with
  | nil => rfl
  | cons e tl ih =>
    by_cases hk : capKept reg e = true
    · rw [List.filter_cons_of_pos hk]
      unfold captureRecords at ih ⊢
      rw [List.flatMap_cons, List.flatMap_cons, ih]
    · rw [List.filter_cons_of_neg (by simpa using hk)]
      unfold captureRecords at ih ⊢
      rw [List.flatMap_cons, ih]
      unfold capKept at hk
      cases hpos : reg.pos e.1 with
      | none =>
        dsimp only
        rfl
      | some st =>
        rw [hpos] at hk
        dsimp only
        simp only [Bool.not_eq_true, Bool.not_eq_false, decide_eq_true_eq, not_not] at hk
        rcases st with ⟨cs, ce⟩
        rw [if_pos (by simpa using hk)]
        rfl

theorem captureRecords_length (reg : Region) (cm : List (Nat × List Scope)) :
    (captureRecords reg cm).length =
      ((cm.filter (capKept reg)).map (fun e => e.2.length + 1)).sum := by
  induction cm with
  | nil => rfl
  | cons e tl ih =>
    unfold captureRecords at ih ⊢
    rw [List.flatMap_cons, List.length_append, ih]
    by_cases hk : capKept reg e = true
    · rw [List.filter_cons_of_pos hk, List.map_cons, List.sum_cons]
      unfold capKept at hk
      cases hpos : reg.pos e.1 with
      | none =>
        rw [hpos] at hk
        simp at hk
      | some st =>
        rw [hpos] at hk
        dsimp only
        simp only [Bool.not_eq_true, Bool.not_eq_false, decide_eq_true_eq] at hk
        rcases st with ⟨cs, ce⟩
        rw [if_neg (by simpa using hk)]
        simp [Nat.add_comm]
    · rw [List.filter_cons_of_neg (by simpa using hk)]
      unfold capKept at hk
      cases hpos : reg.pos e.1 with
      | none =>
        dsimp only
        simp
      | some st =>
        rw [hpos] at hk
        dsimp only
        simp only [Bool.not_eq_true, Bool.not_eq_false, decide_eq_true_eq, not_not] at hk
        rcases st with ⟨cs, ce⟩
        rw [if_pos (by simpa using hk)]
        simp

theorem captureOps_fst_sorted (reg : Region) (cm : List (Nat × List Scope)) :
    List.Pairwise (fun a b => a.1 ≤ b.1) (captureOps reg cm) := by
  have hsorted := List.sorted_insertionSort capKeyLE (captureRecords reg cm)
  unfold captureOps
  rw [List.pairwise_map]
  exact hsorted.imp (by intro a b h; rcases h with h | ⟨h1, _⟩ <;> omega)

/-- C7: the capture block of `exec_pattern` — one push record per scope of
each non-empty capture keyed `(cap_start, -(length as i32))` and one pop
record keyed `(cap_end, i32::MIN)`, stably sorted by key — yields offsets
in non-decreasing order, never a push strictly before a pop at the same
offset, nothing for empty or unmatched captures, and exactly
`scopes.len() + 1` ops per contributing capture. -/
theorem capture_ops_spec (reg : Region) (cm : List (Nat × List Scope))
    (hwf : ∀ e ∈ cm, capRangeOK reg e) :
    List.Pairwise (fun a b => a.1 ≤ b.1) (captureOps reg cm) ∧
    List.Pairwise (fun a b => ¬(a.1 = b.1 ∧ isPushOp a.2 = true ∧ isPopOp b.2 = true))
      (captureOps reg cm) ∧
    captureOps reg (cm.filter (capKept reg)) = captureOps reg cm ∧
    (captureOps reg cm).length =
      ((cm.filter (capKept reg)).map (fun e => e.2.length + 1)).sum := by
  have hsorted := List.sorted_insertionSort capKeyLE (captureRecords reg cm)
  have hperm := List.perm_insertionSort capKeyLE (captureRecords reg cm)
  refine ⟨captureOps_fst_sorted reg cm, ?_, ?_, ?_⟩
  · unfold captureOps
    rw [List.pairwise_map]
    have hfacts := captureRecords_key_facts reg cm hwf
    refine List.Pairwise.imp_of_mem ?_ hsorted
    intro a b ha hb hle
    have hfa := hfacts a (hperm.subset ha)
    have hfb := hfacts b (hperm.subset hb)
    rintro ⟨hoff, hpa, hpb⟩
    have h1 := hfa.1 hpa
    have h2 := hfb.2 hpb
    rcases hle with h | ⟨h3, h4⟩
    · omega
    · omega
  · unfold captureOps
    rw [captureRecords_filter]
  · unfold captureOps
    rw [List.length_map, hperm.length_eq, captureRecords_length]

/-- C7 witness: the sorted capture ops of a concrete
`((bob)|(hi))*`-style region on `hibob`. -/
theorem c7_witness :
    (∀ e ∈ cmC7, capRangeOK regC7 e) ∧
    List.Pairwise (fun a b => a.1 ≤ b.1) (captureOps regC7 cmC7) ∧
    captureOps regC7 cmC7 =
      [(0, ScopeStackOp.push 13), (2, ScopeStackOp.pop 1), (2, ScopeStackOp.push 11),
       (2, ScopeStackOp.push 12), (5, ScopeStackOp.pop 1), (5, ScopeStackOp.pop 1)] :=
  ⟨by decide, (capture_ops_spec regC7 cmC7 (by decide)).1, by decide⟩


theorem trim_sublist (n : Nat) (l : List Nat) :
    (trimProtoStarts n l).Sublist l := by
  unfold trimProtoStarts
  have h := (List.dropWhile_sublist (l := l.reverse)
    (p := fun a => decide (n ≤ a))).reverse
  rwa [List.reverse_reverse] at h

theorem trim_pairwise (n : Nat) (l : List Nat)
    (h : List.Pairwise (· < ·) l) :
    List.Pairwise (· < ·) (trimProtoStarts n l) :=
  List.Pairwise.sublist (trim_sublist n l) h

theorem dropWhile_ge_lt (n : Nat) (m : List Nat)
    (h : List.Pairwise (fun a b => b < a) m) :
    ∀ x ∈ m.dropWhile (fun a => decide (n ≤ a)), x < n := by
  induction m with
  | nil => intro x hx; cases hx
  | cons a tl ih =>
    rw [List.pairwise_cons] at h
    intro x hx
    rw [List.dropWhile_cons] at hx
    by_cases ha : n ≤ a
    · rw [if_pos (by simpa using ha)] at hx
      exact ih h.2 x hx
    · rw [if_neg (by simpa using ha)] at hx
      rcases List.mem_cons.mp hx with rfl | hmem
      · omega
      · have := h.1 x hmem
        omega

theorem trim_lt (n : Nat) (l : List Nat)
    (h : List.Pairwise (· < ·) l) :
    ∀ x ∈ trimProtoStarts n l, x < n := by
  intro x hx
  unfold trimProtoStarts at hx
  rw [List.mem_reverse] at hx
  refine dropWhile_ge_lt n l.reverse ?_ x hx
  rw [List.pairwise_reverse]
  exact h

theorem parse_next_token_proto (g : SyntaxGraph) (line : String)
    (st : LoopState) (h : List.Pairwise (· < ·) st.ps.proto_starts) :
    List.Pairwise (· < ·) (parse_next_token g line st).1.ps.proto_starts := by
  simp only [parse_next_token]
  split
  · exact trim_pairwise _ _ h
  · split
    · split
      · split
        · exact trim_pairwise _ _ h
        · exact trim_pairwise _ _ h
      · simp only [exec_pattern]
        rw [(perform_op_keeps_flags _ _ _ _ _).2]
        split
        · dsimp only
          rw [List.pairwise_append]
          refine ⟨trim_pairwise _ _ h, List.pairwise_singleton _ _, ?_⟩
          intro a ha b hb
          rw [List.mem_singleton] at hb
          subst hb
          exact trim_lt _ _ h a ha
        · exact trim_pairwise _ _ h
    · exact trim_pairwise _ _ h

theorem parseLoop_proto (g : SyntaxGraph) (line : String) (n : Nat)
    (st : LoopState) (h : List.Pairwise (· < ·) st.ps.proto_starts) :
    List.Pairwise (· < ·) (parseLoop g line n st).1.ps.proto_starts := by
  induction n generalizing st with
  | zero => exact h
  | succ n ih =>
    unfold parseLoop
    by_cases hc : (parse_next_token g line st).2
    · simp only [hc, if_true]
      exact ih _ (parse_next_token_proto g line st h)
    · simp only [hc, Bool.false_eq_true, if_false]
      exact parse_next_token_proto g line st h

/-- C9: the `proto_starts` sequence of any reachable session state is
strictly increasing, and after the trimming step against a stack of length
`n` every retained entry is strictly below `n` — hence the entry `n`
recorded for a `from_with_prototype` match is strictly greater than all
retained entries. -/
theorem proto_starts_invariant :
    (∀ (g : SyntaxGraph) (ps : ParseState), Reachable g ps →
      List.Pairwise (· < ·) ps.proto_starts) ∧
    (∀ (n : Nat) (l : List Nat), List.Pairwise (· < ·) l →
      ∀ x ∈ trimProtoStarts n l, x < n) := by
  constructor
  · intro g ps h
    induction h with
    | base => exact List.Pairwise.nil
    | step ps fuel line _ ih =>
      simp only [parse_line]
      exact parseLoop_proto g line fuel _ ih
  · exact trim_lt

/-- C9 witness: the invariant evaluated on a session that parsed one line,
and the trim bound on the concrete list `[0, 1, 5]` against stack depth 2. -/
theorem c9_witness :
    List.Pairwise (· < ·)
      ((parse_line gOne 20 (ParseState.new gOne) "hi").2.1).proto_starts ∧
    (∀ x ∈ trimProtoStarts 2 [0, 1, 5], x < 2) :=
  ⟨proto_starts_invariant.1 gOne _ (Reachable.step _ 20 "hi" Reachable.base),
   proto_starts_invariant.2 2 [0, 1, 5] (by decide)⟩


theorem getD_mem_or {α : Type} (l : List α) (n : Nat) (d : α) :
    l.getD n d ∈ l ∨ l.getD n d = d := by
  induction l generalizing n with
  | nil => right; simp [List.getD]
  | cons a tl ih =>
    cases n with
    | zero => left; simp [List.getD_cons_zero]
    | succ n =>
      rw [List.getD_cons_succ]
      rcases ih n with h | h
      · exact Or.inl (List.mem_cons_of_mem a h)
      · exact Or.inr h

theorem never_wf : RegexWF Regex.never := by
  intro line p reg h
  simp [Regex.never] at h

theorem default_pattern_wf : PatternWF (default : MatchPattern) :=
  ⟨never_wf, fun _ _ => never_wf⟩

theorem patAt_wf (g : SyntaxGraph) (hg : GraphWF g) (c i : Nat) :
    PatternWF (g.patAt c i) := by
  unfold SyntaxGraph.patAt SyntaxGraph.ctx
  rcases getD_mem_or g.contexts c default with hcm | hcd
  · rcases getD_mem_or (g.contexts.getD c default).patterns i default with hmem | hdef
    · exact hg _ hcm _ hmem
    · rw [hdef]
      exact default_pattern_wf
  · rw [hcd]
    rw [show (default : Context).patterns = [] from rfl]
    rw [show ([] : List MatchPattern).getD i default = default from by simp [List.getD]]
    exact default_pattern_wf

theorem never_contained : CapturesContained Regex.never := by
  intro line q reg h
  simp [Regex.never] at h

theorem patAt_contained (g : SyntaxGraph) (hgc : GraphCapturesContained g)
    (c i : Nat) : PatternContained (g.patAt c i) := by
  unfold SyntaxGraph.patAt SyntaxGraph.ctx
  rcases getD_mem_or g.contexts c default with hcm | hcd
  · rcases getD_mem_or (g.contexts.getD c default).patterns i default with hmem | hdef
    · exact hgc _ hcm _ hmem
    · rw [hdef]
      exact ⟨never_contained, fun _ _ => never_contained⟩
  · rw [hcd]
    rw [show (default : Context).patterns = [] from rfl]
    rw [show ([] : List MatchPattern).getD i default = default from by
      simp [List.getD]]
    exact ⟨never_contained, fun _ _ => never_contained⟩

theorem searchAux_none_forall (r : Regex) (line : String) :
    ∀ (fuel p : Nat), r.searchAux line p fuel = Option.none →
      ∀ j, j < fuel → r.matchAt line (p + j) = Option.none := by
  intro fuel
  induction fuel with
  | zero => intro p _ j hj; exact absurd hj (Nat.not_lt_zero j)
  | succ fuel ih =>
    intro p h j hj
    rw [Regex.searchAux] at h
    cases hm : r.matchAt line p with
    | some reg => rw [hm] at h; simp at h
    | none =>
      rw [hm] at h
      dsimp only at h
      cases j with
      | zero => simpa using hm
      | succ j =>
        have h2 := ih (p + 1) h j (by omega)
        rwa [show p + (j + 1) = p + 1 + j from by omega]

theorem searchAux_none_of (r : Regex) (line : String) :
    ∀ (fuel p : Nat),
      (∀ j, j < fuel → r.matchAt line (p + j) = Option.none) →
      r.searchAux line p fuel = Option.none := by
  intro fuel
  induction fuel with
  | zero => intro p _; rfl
  | succ fuel ih =>
    intro p h
    rw [Regex.searchAux]
    have h0 : r.matchAt line p = Option.none := by simpa using h 0 (by omega)
    rw [h0]
    exact ih (p + 1) (by intro j hj; have := h (j + 1) (by omega); rwa [show p + (j + 1) = p + 1 + j from by omega] at this)

theorem searchAux_some_exists (r : Regex) (line : String) :
    ∀ (fuel p : Nat) (reg : Region), r.searchAux line p fuel = some reg →
      ∃ j, j < fuel ∧ r.matchAt line (p + j) = some reg ∧
        ∀ k, k < j → r.matchAt line (p + k) = Option.none := by
  intro fuel
  induction fuel with
  | zero => intro p reg h; cases h
  | succ fuel ih =>
    intro p reg h
    rw [Regex.searchAux] at h
    cases hm : r.matchAt line p with
    | some reg2 =>
      rw [hm] at h
      dsimp only at h
      injection h with h
      subst h
      exact ⟨0, by omega, by simpa using hm, by intro k hk; omega⟩
    | none =>
      rw [hm] at h
      dsimp only at h
      obtain ⟨j, hj, hmj, hk⟩ := ih (p + 1) reg h
      refine ⟨j + 1, by omega, by rwa [show p + (j + 1) = p + 1 + j from by omega], ?_⟩
      intro k hk2
      cases k with
      | zero => simpa using hm
      | succ k =>
        have := hk k (by omega)
        rwa [show p + (k + 1) = p + 1 + k from by omega]

theorem searchAux_some_of (r : Regex) (line : String) :
    ∀ (fuel p j : Nat) (reg : Region), j < fuel →
      r.matchAt line (p + j) = some reg →
      (∀ k, k < j → r.matchAt line (p + k) = Option.none) →
      r.searchAux line p fuel = some reg := by
  intro fuel
  induction fuel with
  | zero => intro p j reg hj _ _; exact absurd hj (Nat.not_lt_zero j)
  | succ fuel ih =>
    intro p j reg hj hm hk
    rw [Regex.searchAux]
    cases j with
    | zero =>
      rw [show r.matchAt line p = some reg from by simpa using hm]
    | succ j =>
      have h0 : r.matchAt line p = Option.none := by simpa using hk 0 (by omega)
      rw [h0]
      dsimp only
      refine ih (p + 1) j reg (by omega) (by rwa [show p + (j + 1) = p + 1 + j from by omega] at hm) ?_
      intro k hk2
      have := hk (k + 1) (by omega)
      rwa [show p + (k + 1) = p + 1 + k from by omega] at this

theorem searchFrom_none_mono (r : Regex) (line : String) (s0 s1 : Nat)
    (h01 : s0 ≤ s1) (h : r.searchFrom line s0 = Option.none) :
    r.searchFrom line s1 = Option.none := by
  unfold Regex.searchFrom at h ⊢
  apply searchAux_none_of
  intro j hj
  have h2 := searchAux_none_forall r line _ s0 h (s1 + j - s0) (by omega)
  rwa [show s0 + (s1 + j - s0) = s1 + j from by omega] at h2

theorem searchFrom_anchor (r : Regex) (line : String) (start : Nat) (reg : Region)
    (h : r.searchFrom line start = some reg) :
    ∃ p, start ≤ p ∧ r.matchAt line p = some reg ∧
      ∀ q, start ≤ q → q < p → r.matchAt line q = Option.none := by
  unfold Regex.searchFrom at h
  obtain ⟨j, hj, hm, hk⟩ := searchAux_some_exists r line _ start reg h
  refine ⟨start + j, by omega, hm, ?_⟩
  intro q h1 h2
  have := hk (q - start) (by omega)
  rwa [show start + (q - start) = q from by omega] at this

theorem searchFrom_mono_some (r : Regex) (line : String) (hwf : RegexWF r)
    (s0 s1 : Nat) (reg : Region) (h01 : s0 ≤ s1)
    (h : r.searchFrom line s0 = some reg) (hs : s1 ≤ reg.pos0.1) :
    r.searchFrom line s1 = some reg := by
  obtain ⟨p, hp0, hm, hnone⟩ := searchFrom_anchor r line s0 reg h
  obtain ⟨e, hpos, hpe, helen⟩ := hwf line p reg hm
  have hp1 : reg.pos0.1 = p := by simp [Region.pos0, hpos]
  rw [hp1] at hs
  unfold Regex.searchFrom
  refine searchAux_some_of r line _ s1 (p - s1) reg (by omega) ?_ ?_
  · rwa [show s1 + (p - s1) = p from by omega]
  · intro k hk
    exact hnone (s1 + k) (by omega) (by omega)

theorem cacheTrans_mono (g : SyntaxGraph) (line : String) (cur cur2 : Nat)
    (cache : SearchCache) (h : cur ≤ cur2) (hc : CacheTrans g line cur cache) :
    CacheTrans g line cur2 cache := by
  intro c i v hl
  obtain ⟨s0, hs0, hrest⟩ := hc c i v hl
  exact ⟨s0, by omega, hrest⟩

theorem cacheTrans_insert (g : SyntaxGraph) (line : String) (cur : Nat)
    (cache : SearchCache) (c i : Nat) (v : Option Region)
    (hc : CacheTrans g line cur cache)
    (hv : (g.patAt c i).regex.searchFrom line cur = v)
    (hds : ∀ reg, v = some reg →
      does_something (g.patAt c i) reg.pos0.1 reg.pos0.2 = true) :
    CacheTrans g line cur (cacheInsert cache (c, i) v) := by
  intro c2 i2 v2 hl
  unfold cacheInsert cacheLookup at hl
  by_cases he : ((c, i) : CacheKey) = (c2, i2)
  · rw [if_pos he] at hl
    injection hl with hl
    subst hl
    cases he
    exact ⟨cur, Nat.le_refl _, hv, hds⟩
  · rw [if_neg he] at hl
    exact hc c2 i2 v2 hl

theorem refs_regex_none (pat : MatchPattern) (caps : Option (Region × String))
    (h : pat.has_captures = true → caps = Option.none) :
    (if pat.has_captures then
      caps.map (fun rs => pat.compile_with_refs rs.1 rs.2)
    else Option.none) = Option.none := by
  by_cases hc : pat.has_captures = true
  · rw [if_pos hc, h hc]
    rfl
  · rw [if_neg hc]

theorem searchFresh_refsfree (line : String) (start : Nat) (key : CacheKey)
    (pat : MatchPattern) (caps : Option (Region × String)) (cache : SearchCache)
    (h : pat.has_captures = true → caps = Option.none) :
    searchFresh line start key pat caps cache =
      match pat.regex.searchFrom line start with
      | some region =>
        if does_something pat region.pos0.1 region.pos0.2 then
          (some region, cacheInsert cache key (some region))
        else (Option.none, cache)
      | Option.none => (Option.none, cacheInsert cache key Option.none) := by
  simp only [searchFresh, refs_regex_none pat caps h, Option.getD_none,
    Option.isNone_none, if_true]

theorem search_uncached_refsfree (line : String) (start : Nat)
    (pat : MatchPattern) (caps : Option (Region × String))
    (h : pat.has_captures = true → caps = Option.none) :
    search_uncached line start pat caps =
      match pat.regex.searchFrom line start with
      | some region =>
        if does_something pat region.pos0.1 region.pos0.2 then some region
        else Option.none
      | Option.none => Option.none := by
  simp only [search_uncached, refs_regex_none pat caps h, Option.getD_none]


theorem searchFresh_trans (g : SyntaxGraph) (line : String)
    (c i : Nat) (caps : Option (Region × String)) (start : Nat)
    (hq : (g.patAt c i).has_captures = true → caps = Option.none)
    (cache : SearchCache) (hc : CacheTrans g line start cache) :
    (searchFresh line start (c, i) (g.patAt c i) caps cache).1 =
      search_uncached line start (g.patAt c i) caps ∧
    CacheTrans g line start
      (searchFresh line start (c, i) (g.patAt c i) caps cache).2 := by
  rw [searchFresh_refsfree line start (c, i) (g.patAt c i) caps cache hq,
    search_uncached_refsfree line start (g.patAt c i) caps hq]
  cases hsf : (g.patAt c i).regex.searchFrom line start with
  | none =>
    dsimp only
    refine ⟨rfl, ?_⟩
    exact cacheTrans_insert g line start cache c i Option.none hc hsf
      (by intro reg h; cases h)
  | some region =>
    dsimp only
    by_cases hds : does_something (g.patAt c i) region.pos0.1 region.pos0.2 = true
    · simp only [if_pos hds]
      refine ⟨trivial, ?_⟩
      refine cacheTrans_insert g line start cache c i (some region) hc hsf ?_
      intro reg h
      injection h with h
      rw [← h]
      exact hds
    · simp only [if_neg hds]
      exact ⟨trivial, hc⟩

theorem search_step_trans (g : SyntaxGraph) (line : String) (hg : GraphWF g)
    (key : CacheKey) (caps : Option (Region × String)) (start : Nat)
    (hq : (g.patAt key.1 key.2).has_captures = true → caps = Option.none)
    (cache : SearchCache) (hc : CacheTrans g line start cache) :
    (search line start key (g.patAt key.1 key.2) caps cache).1 =
      search_uncached line start (g.patAt key.1 key.2) caps ∧
    CacheTrans g line start
      (search line start key (g.patAt key.1 key.2) caps cache).2 := by
  rcases key with ⟨c, i⟩
  have hwf := (patAt_wf g hg c i).1
  unfold search
  cases hl : cacheLookup cache (c, i) with
  | none =>
    dsimp only
    exact searchFresh_trans g line c i caps start hq cache hc
  | some v =>
    cases v with
    | none =>
      dsimp only
      obtain ⟨s0, hs0, hfrom, _⟩ := hc c i Option.none hl
      have hzero : (g.patAt c i).regex.searchFrom line start = Option.none :=
        searchFrom_none_mono _ _ _ _ hs0 hfrom
      rw [search_uncached_refsfree line start (g.patAt c i) caps hq, hzero]
      exact ⟨rfl, hc⟩
    | some reg =>
      dsimp only
      by_cases hge : start ≤ reg.pos0.1
      · rw [if_pos hge]
        obtain ⟨s0, hs0, hfrom, hds⟩ := hc c i (some reg) hl
        have hsome : (g.patAt c i).regex.searchFrom line start = some reg :=
          searchFrom_mono_some _ _ hwf s0 start reg hs0 hfrom hge
        rw [search_uncached_refsfree line start (g.patAt c i) caps hq, hsome]
        dsimp only
        rw [if_pos (hds reg rfl)]
        exact ⟨rfl, hc⟩
      · rw [if_neg hge]
        exact searchFresh_trans g line c i caps start hq cache hc

theorem runCached_eq (g : SyntaxGraph) (line : String) (hg : GraphWF g) :
    ∀ (qs : List Query) (cache : SearchCache) (s : Nat),
      CacheTrans g line s cache →
      (∀ q ∈ qs, s ≤ q.start) →
      List.Pairwise (fun a b => a.start ≤ b.start) qs →
      (∀ q ∈ qs, (g.patAt q.key.1 q.key.2).has_captures = true →
        q.caps = Option.none) →
      runCached g line qs cache =
        qs.map (fun q =>
          search_uncached line q.start (g.patAt q.key.1 q.key.2) q.caps) := by
  intro qs
  induction qs with
  | nil => intro cache s _ _ _ _; rfl
  | cons q rest ih =>
    intro cache s hct hs hmono hrefs
    rw [List.pairwise_cons] at hmono
    have hct2 : CacheTrans g line q.start cache :=
      cacheTrans_mono g line s q.start cache (hs q (List.mem_cons_self q rest)) hct
    have hstep := search_step_trans g line hg q.key q.caps q.start
      (hrefs q (List.mem_cons_self q rest)) cache hct2
    simp only [runCached, List.map_cons]
    rw [hstep.1]
    congr 1
    refine ih _ q.start hstep.2 ?_ hmono.2 ?_
    · intro q2 hq2
      exact hmono.1 q2 hq2
    · intro q2 hq2
      exact hrefs q2 (List.mem_cons_of_mem q hq2)

/-- C10: the per-line search cache is observationally transparent — for
any sequence of queries with non-decreasing start offsets, none of which
uses back-reference substitution, running them through one shared cache
returns exactly what the memoization-free search returns at each queried
start offset. -/
theorem search_cache_transparent (g : SyntaxGraph) (line : String)
    (hg : GraphWF g) (qs : List Query)
    (hmono : List.Pairwise (fun a b => a.start ≤ b.start) qs)
    (hrefs : ∀ q ∈ qs, (g.patAt q.key.1 q.key.2).has_captures = true →
      q.caps = Option.none) :
    runCached g line qs [] =
      qs.map (fun q =>
        search_uncached line q.start (g.patAt q.key.1 q.key.2) q.caps) := by
  refine runCached_eq g line hg qs [] 0 ?_ (fun q _ => Nat.zero_le _) hmono hrefs
  intro c i v h
  simp [cacheLookup] at h

theorem oneCharRegex_wf : RegexWF oneCharRegex := by
  intro line p reg h
  unfold oneCharRegex at h
  dsimp only at h
  by_cases hp : p < line.length
  · rw [if_pos hp] at h
    injection h with h
    subst h
    exact ⟨p + 1, rfl, by omega, by omega⟩
  · rw [if_neg hp] at h
    cases h

theorem gOne_wf : GraphWF gOne := by
  intro c hc pat hp
  simp only [gOne, List.mem_singleton] at hc
  subst hc
  simp only [List.mem_singleton] at hp
  subst hp
  exact ⟨oneCharRegex_wf, fun _ _ => never_wf⟩

/-- C10 witness: three queries (two at offset 0, one at offset 1) on the
single-pattern graph, evaluated against the uncached search. -/
theorem c10_witness :
    List.Pairwise (fun a b => a.start ≤ b.start) qsW ∧
    runCached gOne "ab" qsW [] =
      qsW.map (fun q =>
        search_uncached "ab" q.start (gOne.patAt q.key.1 q.key.2) q.caps) :=
  ⟨by decide,
   search_cache_transparent gOne "ab" gOne_wf qsW (by decide) (by decide)⟩


theorem matchRegionWF_of (r : Regex) (hwf : RegexWF r) (line : String)
    (start p : Nat) (reg : Region) (hp : start ≤ p)
    (hm : r.matchAt line p = some reg) : MatchRegionWF line start reg := by
  obtain ⟨e, h1, h2, h3⟩ := hwf line p reg hm
  exact ⟨p, e, h1, hp, h2, h3⟩

theorem cacheWF_insert (g : SyntaxGraph) (line : String) (cache : SearchCache)
    (c i : Nat) (v : Option Region) (hc : CacheWF g line cache)
    (hv : ∀ reg, v = some reg →
      ∃ p, (g.patAt c i).regex.matchAt line p = some reg ∧
        does_something (g.patAt c i) reg.pos0.1 reg.pos0.2 = true) :
    CacheWF g line (cacheInsert cache (c, i) v) := by
  intro c2 i2 reg hl
  unfold cacheInsert cacheLookup at hl
  by_cases he : ((c, i) : CacheKey) = (c2, i2)
  · rw [if_pos he] at hl
    injection hl with hl
    cases he
    exact hv reg hl
  · rw [if_neg he] at hl
    exact hc c2 i2 reg hl

theorem searchFresh_refs (line : String) (start : Nat) (key : CacheKey)
    (pat : MatchPattern) (rs : Region × String) (cache : SearchCache)
    (h1 : pat.has_captures = true) :
    searchFresh line start key pat (some rs) cache =
      match (pat.compile_with_refs rs.1 rs.2).searchFrom line start with
      | some region =>
        if does_something pat region.pos0.1 region.pos0.2 then
          (some region, cache)
        else (Option.none, cache)
      | Option.none => (Option.none, cache) := by
  simp only [searchFresh, h1]
  rfl

theorem searchFresh_sound (g : SyntaxGraph) (line : String) (hg : GraphWF g)
    (c i : Nat) (caps : Option (Region × String)) (start : Nat)
    (cache : SearchCache) (hc : CacheWF g line cache) :
    CacheWF g line (searchFresh line start (c, i) (g.patAt c i) caps cache).2 ∧
    ∀ reg, (searchFresh line start (c, i) (g.patAt c i) caps cache).1 = some reg →
      SearchResultOK g line start c i reg := by
  by_cases hq : (g.patAt c i).has_captures = true → caps = Option.none
  · rw [searchFresh_refsfree line start (c, i) (g.patAt c i) caps cache hq]
    cases hsf : (g.patAt c i).regex.searchFrom line start with
    | none =>
      dsimp only
      refine ⟨cacheWF_insert g line cache c i Option.none hc ?_, ?_⟩
      · intro reg h
        cases h
      · intro reg h
        cases h
    | some region =>
      dsimp only
      obtain ⟨p, hp, hm, _⟩ := searchFrom_anchor _ line start region hsf
      have hwfr := matchRegionWF_of _ (patAt_wf g hg c i).1 line start p region hp hm
      by_cases hds : does_something (g.patAt c i) region.pos0.1 region.pos0.2 = true
      · simp only [if_pos hds]
        refine ⟨cacheWF_insert g line cache c i (some region) hc ?_, ?_⟩
        · intro reg h
          injection h with h
          subst h
          exact ⟨p, hm, hds⟩
        · intro reg h
          injection h with h
          subst h
          exact ⟨hwfr, hds, Or.inl ⟨p, hm⟩⟩
      · simp only [if_neg hds]
        exact ⟨hc, by intro reg h; cases h⟩
  · push_neg at hq
    obtain ⟨h1, h2⟩ := hq
    cases hcap : caps with
    | none => exact absurd hcap h2
    | some rs =>
      rw [searchFresh_refs line start (c, i) (g.patAt c i) rs cache h1]
      cases hsf : ((g.patAt c i).compile_with_refs rs.1 rs.2).searchFrom line start with
      | none =>
        dsimp only
        exact ⟨hc, by intro reg h; cases h⟩
      | some region =>
        dsimp only
        obtain ⟨p, hp, hm, _⟩ := searchFrom_anchor _ line start region hsf
        have hwfr := matchRegionWF_of _ ((patAt_wf g hg c i).2 rs.1 rs.2)
          line start p region hp hm
        by_cases hds : does_something (g.patAt c i) region.pos0.1 region.pos0.2 = true
        · simp only [if_pos hds]
          refine ⟨hc, ?_⟩
          intro reg h
          injection h with h
          subst h
          exact ⟨hwfr, hds, Or.inr ⟨rs, p, hm⟩⟩
        · simp only [if_neg hds]
          exact ⟨hc, by intro reg h; cases h⟩

theorem search_sound (g : SyntaxGraph) (line : String) (hg : GraphWF g)
    (c i : Nat) (caps : Option (Region × String)) (start : Nat)
    (cache : SearchCache) (hc : CacheWF g line cache) :
    CacheWF g line (search line start (c, i) (g.patAt c i) caps cache).2 ∧
    ∀ reg, (search line start (c, i) (g.patAt c i) caps cache).1 = some reg →
      SearchResultOK g line start c i reg := by
  unfold search
  cases hl : cacheLookup cache (c, i) with
  | none =>
    dsimp only
    exact searchFresh_sound g line hg c i caps start cache hc
  | some v =>
    cases v with
    | none =>
      dsimp only
      exact ⟨hc, by intro reg h; cases h⟩
    | some reg0 =>
      dsimp only
      by_cases hge : start ≤ reg0.pos0.1
      · rw [if_pos hge]
        obtain ⟨p, hm, hds⟩ := hc c i reg0 hl
        refine ⟨hc, ?_⟩
        intro reg h
        injection h with h
        subst h
        obtain ⟨e, h1, h2, h3⟩ := (patAt_wf g hg c i).1 line p reg0 hm
        have hp1 : reg0.pos0.1 = p := by simp [Region.pos0, h1]
        refine ⟨⟨p, e, h1, ?_, h2, h3⟩, hds, Or.inl ⟨p, hm⟩⟩
        omega
      · rw [if_neg hge]
        exact searchFresh_sound g line hg c i caps start cache hc

theorem searchResults_sound (g : SyntaxGraph) (line : String) (start : Nat)
    (hg : GraphWF g) :
    ∀ (cands : List Candidate) (cache : SearchCache), CacheWF g line cache →
      ∀ x ∈ searchResults g line start cands cache, ∀ reg, x.2 = some reg →
        start ≤ reg.pos0.1 := by
  intro cands
  induction cands with
  | nil => intro cache _ x hx; cases hx
  | cons cand rest ih =>
    intro cache hc x hx reg hreg
    simp only [searchResults] at hx
    have hs := search_sound g line hg cand.ctxId cand.patIndex cand.captures
      start cache hc
    rcases List.mem_cons.mp hx with rfl | hmem
    · obtain ⟨⟨p, e, h1, h2, _⟩, _, _⟩ := hs.2 reg hreg
      simp [Region.pos0, h1]
      omega
    · exact ih _ hs.1 x hmem reg hreg

theorem selectFull_skip (g : SyntaxGraph) (start : Nat) (cpl da : Bool) :
    ∀ (results : List (Candidate × Option Region)) (min_start : Nat)
      (best : Option RegexMatch),
      (∀ x ∈ results, ∀ reg, x.2 = some reg → min_start ≤ reg.pos0.1) →
      selectFull g start cpl da results min_start best false = best := by
  intro results
  induction results with
  | nil => intro _ _ _; rfl
  | cons x rest ih =>
    intro min_start best hanch
    rcases x with ⟨cand, res⟩
    cases res with
    | none =>
      simp only [selectFull]
      exact ih min_start best (by
        intro y hy reg hreg
        exact hanch y (List.mem_cons_of_mem _ hy) reg hreg)
    | some reg =>
      simp only [selectFull]
      rw [if_neg]
      · exact ih min_start best (by
          intro y hy reg2 hreg
          exact hanch y (List.mem_cons_of_mem _ hy) reg2 hreg)
      · have := hanch (cand, some reg) (List.mem_cons_self _ _) reg rfl
        intro hcond
        rcases hcond with h | ⟨_, h2, _⟩
        · omega
        · cases h2

theorem find_best_loop_eq (g : SyntaxGraph) (line : String) (start : Nat)
    (cpl : Bool) (hg : GraphWF g) :
    ∀ (cands : List Candidate) (cache : SearchCache) (min_start : Nat)
      (best : Option RegexMatch) (pwl : Bool),
      CacheWF g line cache →
      (find_best_loop g line start cpl cands cache min_start best pwl).1 =
        selectFull g start cpl true (searchResults g line start cands cache)
          min_start best pwl := by
  intro cands
  induction cands with
  | nil => intro cache min_start best pwl _; rfl
  | cons cand rest ih =>
    intro cache min_start best pwl hc
    have hs := search_sound g line hg cand.ctxId cand.patIndex cand.captures
      start cache hc
    simp only [find_best_loop, searchResults]
    rcases hcall : search line start (cand.ctxId, cand.patIndex)
      (g.patAt cand.ctxId cand.patIndex) cand.captures cache with ⟨res, cache1⟩
    rw [hcall] at hs
    cases res with
    | none =>
      dsimp only
      simp only [selectFull]
      exact ih cache1 min_start best pwl hs.1
    | some reg =>
      dsimp only
      simp only [selectFull, eq_self_iff_true, true_or, and_true]
      by_cases hcond : reg.pos0.1 < min_start ∨ (reg.pos0.1 = min_start ∧ pwl = true)
      · simp only [if_pos hcond]
        by_cases hexit : reg.pos0.1 = start ∧
            (cpl && !decide (start < reg.pos0.2) &&
              decide ((g.patAt cand.ctxId cand.patIndex).operation =
                MatchOperation.pop)) = false
        · rw [if_pos hexit]
          rw [hexit.2]
          refine (selectFull_skip g start cpl true _ reg.pos0.1 _ ?_).symm
          intro y hy reg2 hreg
          have := searchResults_sound g line start hg rest cache1 hs.1 y hy reg2 hreg
          omega
        · rw [if_neg hexit]
          exact ih cache1 reg.pos0.1 _ _ hs.1
      · simp only [if_neg hcond]
        exact ih cache1 min_start best pwl hs.1

/-- C4 (amended): the selector returns the candidate of the full-scan
selection rule with the amended tie-break — earliest match start wins,
first-visited wins among equal starts, except that while the current best
is a looping pop, the next candidate matching at the same start offset
displaces it whether or not it is itself a looping pop (so among only
looping pops the last one is returned); the early exit on a non-looping
exact-`start` candidate does not change the result. -/
theorem find_best_match_eq_select (g : SyntaxGraph) (line : String)
    (hg : GraphWF g) (ps : ParseState) (start : Nat) (cache : SearchCache)
    (cpl : Bool) (hc : CacheWF g line cache) :
    (find_best_match g line ps start cache cpl).1 =
      selectFull g start cpl true
        (searchResults g line start (candidatesOf g ps) cache)
        usizeMax Option.none false :=
  find_best_loop_eq g line start cpl hg (candidatesOf g ps) cache usizeMax
    Option.none false hc

/-- C4 counterexample: with two looping pops at the same start offset, the
code returns the second (later) one, while the claim's rule — displacement
only by a non-looping candidate — returns the first. -/
theorem c4_counterexample :
    ((find_best_match gPopLoop "a" ⟨[⟨0, Option.none, Option.none⟩], false, []⟩
        0 [] true).1).map (fun m => m.pat_index) = some 1 ∧
    (selectFull gPopLoop 0 true false
        (searchResults gPopLoop "a" 0
          (candidatesOf gPopLoop ⟨[⟨0, Option.none, Option.none⟩], false, []⟩) [])
        usizeMax Option.none false).map (fun m => m.pat_index) = some 0 := by
  decide

/-- C4 witness: the amended selection equality evaluated on the concrete
one-pattern graph with an empty cache. -/
theorem c4_witness :
    (find_best_match gOne "ab" (ParseState.new gOne) 0 [] false).1 =
      selectFull gOne 0 false true
        (searchResults gOne "ab" 0 (candidatesOf gOne (ParseState.new gOne)) [])
        usizeMax Option.none false :=
  find_best_match_eq_select gOne "ab" gOne_wf (ParseState.new gOne) 0 [] false
    (by intro c i reg h; simp [cacheLookup] at h)


theorem pairwise_of_all {α : Type} (R : α → α → Prop) (l : List α)
    (h : ∀ a ∈ l, ∀ b ∈ l, R a b) : List.Pairwise R l := by
  induction l with
  | nil => exact List.Pairwise.nil
  | cons x xs ih =>
    refine List.Pairwise.cons ?_ (ih ?_)
    · intro b hb
      exact h x (List.mem_cons_self x xs) b (List.mem_cons_of_mem x hb)
    · intro a ha b hb
      exact h a (List.mem_cons_of_mem x ha) b (List.mem_cons_of_mem x hb)

theorem pushSetMetaOps_offsets (g : SyntaxGraph) (b : Bool) (i : Nat)
    (c : Context) (is_set : Bool) (refs : List ContextId) :
    ∀ o ∈ pushSetMetaOps g b i c is_set refs, o.1 = i := by
  intro o ho
  simp only [pushSetMetaOps] at ho
  cases b with
  | true =>
    rw [if_pos rfl] at ho
    rw [List.mem_flatMap] at ho
    obtain ⟨r, _, hm⟩ := ho
    rcases List.mem_append.mp hm with h | h
    · split at h
      · split at h
        · rw [List.mem_singleton] at h
          subst h
          rfl
        · cases h
      · cases h
    · rw [List.mem_map] at h
      obtain ⟨sc, _, rfl⟩ := h
      rfl
  | false =>
    rw [if_neg Bool.false_ne_true] at ho
    split at ho
    · rcases List.mem_append.mp ho with h | h
      · split at h
        all_goals split at h
        all_goals
          first
          | (rw [List.mem_singleton] at h
             subst h
             rfl)
          | cases h
      · rw [List.mem_flatMap] at h
        obtain ⟨r, _, hm⟩ := h
        rcases List.mem_append.mp hm with h2 | h2
        · rcases List.mem_append.mp h2 with h3 | h3
          · split at h3
            · split at h3
              · rw [List.mem_singleton] at h3
                subst h3
                rfl
              · cases h3
            · cases h3
          · rw [List.mem_map] at h3
            obtain ⟨sc, _, rfl⟩ := h3
            rfl
        · rw [List.mem_map] at h2
          obtain ⟨sc, _, rfl⟩ := h2
          rfl
    · cases ho

theorem push_meta_ops_offsets (g : SyntaxGraph) (b : Bool) (i : Nat)
    (c : Context) (op : MatchOperation) :
    ∀ o ∈ push_meta_ops g b i c op, o.1 = i := by
  intro o ho
  cases op with
  | pop =>
    simp only [push_meta_ops] at ho
    cases b with
    | true =>
      rw [if_pos rfl] at ho
      rcases List.mem_append.mp ho with h | h
      · split at h
        · rw [List.mem_singleton] at h
          subst h
          rfl
        · cases h
      · simp at h
    | false =>
      rw [if_neg Bool.false_ne_true] at ho
      rcases List.mem_append.mp ho with h | h
      · split at h
        · rw [List.mem_singleton] at h
          subst h
          rfl
        · cases h
      · split at h
        · rw [List.mem_singleton] at h
          subst h
          rfl
        · cases h
  | none => cases ho
  | push refs => exact pushSetMetaOps_offsets g b i c false refs o ho
  | set refs => exact pushSetMetaOps_offsets g b i c true refs o ho

theorem captureRecords_bounds (reg : Region) (cm : List (Nat × List Scope))
    (p e : Nat)
    (hw : ∀ i s t, reg.pos i = some (s, t) → p ≤ s ∧ s ≤ t ∧ t ≤ e) :
    ∀ rec ∈ captureRecords reg cm, p ≤ rec.1.1 ∧ rec.1.1 ≤ e := by
  intro rec hrec
  rw [captureRecords, List.mem_flatMap] at hrec
  obtain ⟨en, _, hmem⟩ := hrec
  cases hpos : reg.pos en.1 with
  | none =>
    rw [hpos] at hmem
    dsimp only at hmem
    cases hmem
  | some st =>
    rw [hpos] at hmem
    dsimp only at hmem
    rcases st with ⟨cs, ce⟩
    obtain ⟨h1, h2, h3⟩ := hw en.1 cs ce hpos
    by_cases heq : cs = ce
    · rw [if_pos heq] at hmem
      cases hmem
    · rw [if_neg heq] at hmem
      rcases List.mem_append.mp hmem with h | h
      · rw [List.mem_map] at h
        obtain ⟨sc, _, rfl⟩ := h
        dsimp only
        exact ⟨by omega, by omega⟩
      · rw [List.mem_singleton] at h
        subst h
        dsimp only
        exact ⟨by omega, by omega⟩

theorem captureOps_bounds (reg : Region) (cm : List (Nat × List Scope))
    (p e : Nat)
    (hw : ∀ i s t, reg.pos i = some (s, t) → p ≤ s ∧ s ≤ t ∧ t ≤ e) :
    ∀ o ∈ captureOps reg cm, p ≤ o.1 ∧ o.1 ≤ e := by
  intro o ho
  unfold captureOps at ho
  rw [List.mem_map] at ho
  obtain ⟨rec, hrec, rfl⟩ := ho
  have hmem := (List.perm_insertionSort capKeyLE (captureRecords reg cm)).subset hrec
  exact captureRecords_bounds reg cm p e hw rec hmem

theorem exec_pattern_ops (g : SyntaxGraph) (line : String) (m : RegexMatch)
    (lc : Context) (ps : ParseState) (p e : Nat)
    (hpos : m.regions.pos 0 = some (p, e)) (hpe : p ≤ e)
    (hcaps : ∀ i s t, m.regions.pos i = some (s, t) → p ≤ s ∧ s ≤ t ∧ t ≤ e) :
    List.Pairwise (fun a b => a.1 ≤ b.1) (exec_pattern g line m lc ps).1 ∧
    ∀ o ∈ (exec_pattern g line m lc ps).1, p ≤ o.1 ∧ o.1 ≤ e := by
  have hms : m.regions.pos0 = (p, e) := by simp [Region.pos0, hpos]
  simp only [exec_pattern, hms, List.append_assoc]
  set pat := g.patAt m.context m.pat_index with hpat
  have h1 := push_meta_ops_offsets g true p lc pat.operation
  have h5 := push_meta_ops_offsets g false e lc pat.operation
  have hcap3 : ∀ o ∈ (match pat.captures with
      | some capture_map => captureOps m.regions capture_map
      | Option.none => []), p ≤ o.1 ∧ o.1 ≤ e := by
    cases pat.captures with
    | none => intro o ho; cases ho
    | some cmap =>
      intro o ho
      exact captureOps_bounds m.regions cmap p e hcaps o ho
  have hcap3s : List.Pairwise (fun a b => a.1 ≤ b.1)
      (match pat.captures with
      | some capture_map => captureOps m.regions capture_map
      | Option.none => []) := by
    cases pat.captures with
    | none => exact List.Pairwise.nil
    | some cmap => exact captureOps_fst_sorted m.regions cmap
  have h2 : ∀ o ∈ pat.scope.map (fun sc => ((p : Nat), ScopeStackOp.push sc)),
      o.1 = p := by
    intro o ho
    rw [List.mem_map] at ho
    obtain ⟨sc, _, rfl⟩ := ho
    rfl
  have h4 : ∀ o ∈ (if !pat.scope.isEmpty then
      [((e : Nat), ScopeStackOp.pop pat.scope.length)] else []), o.1 = e := by
    intro o ho
    split at ho
    · rw [List.mem_singleton] at ho
      subst ho
      rfl
    · cases ho
  constructor
  · rw [List.pairwise_append]
    refine ⟨pairwise_of_all _ _ (fun a ha b hb => by rw [h1 a ha, h1 b hb]), ?_, ?_⟩
    · rw [List.pairwise_append]
      refine ⟨pairwise_of_all _ _ (fun a ha b hb => by rw [h2 a ha, h2 b hb]), ?_, ?_⟩
      · rw [List.pairwise_append]
        refine ⟨hcap3s, ?_, ?_⟩
        · rw [List.pairwise_append]
          refine ⟨pairwise_of_all _ _ (fun a ha b hb => by rw [h4 a ha, h4 b hb]), ?_, ?_⟩
          · exact pairwise_of_all _ _ (fun a ha b hb => by rw [h5 a ha, h5 b hb])
          · intro a ha b hb
            rw [h4 a ha, h5 b hb]
        · intro a ha b hb
          have hb2 : b.1 = e ∨ b.1 = e := by
            rcases List.mem_append.mp hb with h | h
            · exact Or.inl (h4 b h)
            · exact Or.inr (h5 b h)
          have := hcap3 a ha
          rcases hb2 with h | h <;> omega
      · intro a ha b hb
        rw [h2 a ha]
        rcases List.mem_append.mp hb with h | h
        · exact (hcap3 b h).1
        · rcases List.mem_append.mp h with h6 | h6
          · rw [h4 b h6]; omega
          · rw [h5 b h6]; omega
    · intro a ha b hb
      rw [h1 a ha]
      rcases List.mem_append.mp hb with h | h
      · rw [h2 b h]
      · rcases List.mem_append.mp h with h6 | h6
        · exact (hcap3 b h6).1
        · rcases List.mem_append.mp h6 with h7 | h7
          · rw [h4 b h7]; omega
          · rw [h5 b h7]; omega
  · intro o ho
    rcases List.mem_append.mp ho with h | h
    · rw [h1 o h]; omega
    · rcases List.mem_append.mp h with h | h
      · rw [h2 o h]; omega
      · rcases List.mem_append.mp h with h | h
        · exact hcap3 o h
        · rcases List.mem_append.mp h with h | h
          · rw [h4 o h]; omega
          · rw [h5 o h]; omega


theorem find_best_loop_sound (g : SyntaxGraph) (line : String) (start : Nat)
    (cpl : Bool) (hg : GraphWF g) :
    ∀ (cands : List Candidate) (cache : SearchCache) (min_start : Nat)
      (best : Option RegexMatch) (pwl : Bool),
      CacheWF g line cache →
      (∀ m, best = some m →
        SearchResultOK g line start m.context m.pat_index m.regions) →
      CacheWF g line
        (find_best_loop g line start cpl cands cache min_start best pwl).2 ∧
      ∀ m, (find_best_loop g line start cpl cands cache min_start best pwl).1 =
          some m →
        SearchResultOK g line start m.context m.pat_index m.regions := by
  intro cands
  induction cands with
  | nil => intro cache min_start best pwl hc hb; exact ⟨hc, hb⟩
  | cons cand rest ih =>
    intro cache min_start best pwl hc hb
    have hs := search_sound g line hg cand.ctxId cand.patIndex cand.captures
      start cache hc
    simp only [find_best_loop]
    rcases hcall : search line start (cand.ctxId, cand.patIndex)
      (g.patAt cand.ctxId cand.patIndex) cand.captures cache with ⟨res, cache1⟩
    rw [hcall] at hs
    cases res with
    | none =>
      dsimp only
      exact ih cache1 min_start best pwl hs.1 hb
    | some reg =>
      dsimp only
      split
      · split
        · refine ⟨hs.1, ?_⟩
          intro m hm
          injection hm with hm
          subst hm
          exact hs.2 reg rfl
        · refine ih cache1 _ _ _ hs.1 ?_
          intro m hm
          injection hm with hm
          subst hm
          exact hs.2 reg rfl
      · exact ih cache1 min_start best pwl hs.1 hb

theorem find_best_match_sound (g : SyntaxGraph) (line : String) (hg : GraphWF g)
    (ps : ParseState) (start : Nat) (cache : SearchCache) (cpl : Bool)
    (hc : CacheWF g line cache) :
    CacheWF g line (find_best_match g line ps start cache cpl).2 ∧
    ∀ m, (find_best_match g line ps start cache cpl).1 = some m →
      SearchResultOK g line start m.context m.pat_index m.regions :=
  find_best_loop_sound g line start cpl hg (candidatesOf g ps) cache usizeMax
    Option.none false hc (by intro m hm; cases hm)

theorem parse_next_token_mono (g : SyntaxGraph) (line : String) (hg : GraphWF g)
    (hgc : GraphCapturesContained g)
    (st : LoopState) (hc : CacheWF g line st.cache)
    (hops : List.Pairwise (fun a b => a.1 ≤ b.1) st.ops)
    (hbound : ∀ o ∈ st.ops, o.1 ≤ st.start) :
    CacheWF g line (parse_next_token g line st).1.cache ∧
    List.Pairwise (fun a b => a.1 ≤ b.1) (parse_next_token g line st).1.ops ∧
    (∀ o ∈ (parse_next_token g line st).1.ops,
      o.1 ≤ (parse_next_token g line st).1.start) := by
  have hsound := find_best_match_sound g line hg
    { st.ps with
      proto_starts := trimProtoStarts st.ps.stack.length st.ps.proto_starts }
    st.start st.cache
    (decide (st.non_consuming_push_at = (st.start, st.ps.stack.length))) hc
  simp only [parse_next_token]
  cases hse : st.ps.stack.isEmpty with
  | true =>
    simp only [hse, if_true]
    exact ⟨hc, hops, hbound⟩
  | false =>
    simp only [hse, Bool.false_eq_true, if_false]
    rcases hfb : find_best_match g line
      { st.ps with
        proto_starts := trimProtoStarts st.ps.stack.length st.ps.proto_starts }
      st.start st.cache
      (decide (st.non_consuming_push_at = (st.start, st.ps.stack.length)))
      with ⟨best, cache1⟩
    rw [hfb] at hsound
    cases best with
    | none =>
      dsimp only
      exact ⟨hsound.1, hops, hbound⟩
    | some m =>
      dsimp only
      cases hwl : m.would_loop with
      | true =>
        simp only [hwl, if_true]
        by_cases hend : st.start = line.length
        · simp only [if_pos hend]
          exact ⟨hsound.1, hops, hbound⟩
        · simp only [if_neg hend]
          refine ⟨hsound.1, hops, ?_⟩
          intro o ho
          have := hbound o ho
          omega
      | false =>
        simp only [hwl, Bool.false_eq_true, if_false]
        obtain ⟨⟨p, e2, h1, h2, h3, h4⟩, hds2, hprov⟩ := hsound.2 m rfl
        have hcc := patAt_contained g hgc m.context m.pat_index
        have h5 : ∀ i s t, m.regions.pos i = some (s, t) →
            p ≤ s ∧ s ≤ t ∧ t ≤ e2 := by
          rcases hprov with ⟨q, hq⟩ | ⟨rs, q, hq⟩
          · exact hcc.1 line q m.regions hq p e2 h1
          · exact hcc.2 rs.1 rs.2 line q m.regions hq p e2 h1
        have hexec := fun lc ps2 => exec_pattern_ops g line m lc ps2 p e2 h1 h3 h5
        have hpos1 : m.regions.pos0.1 = p := by simp [Region.pos0, h1]
        have hpos2 : m.regions.pos0.2 = e2 := by simp [Region.pos0, h1]
        refine ⟨hsound.1, ?_, ?_⟩
        · rw [List.pairwise_append]
          refine ⟨hops, (hexec _ _).1, ?_⟩
          intro a ha b hb
          have h6 := hbound a ha
          have h7 := ((hexec _ _).2 b hb).1
          omega
        · intro o ho
          rw [hpos2]
          rcases List.mem_append.mp ho with h | h
          · have := hbound o h
            omega
          · have := (hexec _ _).2 o h
            omega

theorem parseLoop_mono (g : SyntaxGraph) (line : String) (hg : GraphWF g)
    (hgc : GraphCapturesContained g) :
    ∀ (n : Nat) (st : LoopState), CacheWF g line st.cache →
      List.Pairwise (fun a b => a.1 ≤ b.1) st.ops →
      (∀ o ∈ st.ops, o.1 ≤ st.start) →
      List.Pairwise (fun a b => a.1 ≤ b.1) (parseLoop g line n st).1.ops := by
  intro n
  induction n with
  | zero => intro st _ hops _; exact hops
  | succ n ih =>
    intro st hc hops hbound
    have h := parse_next_token_mono g line hg hgc st hc hops hbound
    unfold parseLoop
    by_cases hcont : (parse_next_token g line st).2
    · simp only [hcont, if_true]
      exact ih _ h.1 h.2.1 h.2.2
    · simp only [hcont, Bool.false_eq_true, if_false]
      exact h.2.1

/-- C1 (amended): for every syntax graph that satisfies the engine
contract (matches anchored at the queried position and ending within the
line) and whose regexes keep every reported capture group inside the
whole match, the `(offset, op)` sequence returned by one `parse_line`
call has non-decreasing byte offsets from first to last element.  The
containment restriction is necessary: a lookahead capture reaching past
the whole match makes the offsets decrease (see the counterexample). -/
theorem parse_line_offsets_monotone (g : SyntaxGraph) (hg : GraphWF g)
    (hgc : GraphCapturesContained g)
    (fuel : Nat) (ps : ParseState) (line : String) :
    List.Pairwise (fun a b => a.1 ≤ b.1) (parse_line g fuel ps line).1 := by
  simp only [parse_line]
  apply parseLoop_mono g line hg hgc fuel
  · intro c i reg h
    simp [cacheLookup] at h
  · split
    · split
      · exact List.pairwise_singleton _ _
      · exact List.Pairwise.nil
    · exact List.Pairwise.nil
  · intro o ho
    split at ho
    · split at ho
      · rw [List.mem_singleton] at ho
        subst ho
        exact Nat.le_refl 0
      · cases ho
    · cases ho

theorem oneCharRegex_contained : CapturesContained oneCharRegex := by
  intro line q reg h
  unfold oneCharRegex at h
  dsimp only at h
  by_cases hq : q < line.length
  · rw [if_pos hq] at h
    injection h with h
    subst h
    intro s0 t0 h0 i s t hi
    cases i with
    | zero =>
      simp only [Region.pos, List.getD_cons_zero] at h0 hi
      injection h0 with h0
      injection hi with hi
      obtain ⟨hs0, ht0⟩ := Prod.mk.injEq .. ▸ h0
      obtain ⟨hs, ht⟩ := Prod.mk.injEq .. ▸ hi
      omega
    | succ i =>
      simp [Region.pos, List.getD] at hi
  · rw [if_neg hq] at h
    cases h

theorem gOne_contained : GraphCapturesContained gOne := by
  intro c hc pat hp
  simp only [gOne, List.mem_singleton] at hc
  subst hc
  simp only [List.mem_singleton] at hp
  subst hp
  exact ⟨oneCharRegex_contained, fun _ _ => never_contained⟩

/-- C1 witness: monotone offsets on the concrete one-pattern graph with
`meta_content_scope = [3, 4]`, parsing the line `hi`. -/
theorem c1_witness :
    List.Pairwise (fun a b => a.1 ≤ b.1)
      (parse_line gOne 20 (ParseState.new gOne) "hi").1 :=
  parse_line_offsets_monotone gOne gOne_wf gOne_contained 20
    (ParseState.new gOne) "hi"

/-- C1 counterexample: with an engine behaving like oniguruma on
`foo(?=(bar))` (whole match `(0, 3)`, lookahead capture `(3, 6)`), a
pattern carrying a literal scope and a capture annotation makes
`parse_line` emit the capture pop at offset `6` before the literal-scope
pop at offset `3`: the offsets decrease. -/
theorem c1_counterexample :
    ¬ List.Pairwise (fun a b => a.1 ≤ b.1)
      (parse_line gLook 2 (ParseState.new gLook) "").1 := by decide


theorem getLastD_replicate {α : Type} (a : α) :
    ∀ (n : Nat) (d : α), (List.replicate (n + 1) a).getLastD d = a := by
  intro n
  induction n with
  | zero => intro d; rfl
  | succ n ih =>
    intro d
    rw [List.replicate_succ, List.getLastD_cons]
    exact ih a

theorem filterMap_replicate_none {α β : Type} (f : α → Option β) (a : α)
    (hf : f a = Option.none) :
    ∀ n, (List.replicate n a).filterMap f = [] := by
  intro n
  induction n with
  | zero => rfl
  | succ n ih =>
    rw [List.replicate_succ, List.filterMap_cons, hf]
    exact ih

theorem badPush_candidates (k : Nat) (ps : ParseState)
    (hstack : ps.stack =
      List.replicate (k + 1) (⟨0, Option.none, Option.none⟩ : StateLevel))
    (hproto : ps.proto_starts = []) :
    candidatesOf gBadPush ps = [⟨false, 0, 0, Option.none⟩] := by
  unfold candidatesOf contextChain
  rw [hstack, hproto]
  rw [getLastD_replicate]
  simp only [List.getLastD, List.drop_zero]
  rw [filterMap_replicate_none _ _ rfl]
  rfl

theorem badPush_find (k : Nat) (ps : ParseState) (cpl : Bool)
    (cache : SearchCache)
    (hstack : ps.stack =
      List.replicate (k + 1) (⟨0, Option.none, Option.none⟩ : StateLevel))
    (hproto : ps.proto_starts = [])
    (hcache : cache = [] ∨ cache = [((0, 0), some ⟨[some (0, 0)]⟩)]) :
    find_best_match gBadPush "" ps 0 cache cpl =
      (some ⟨⟨[some (0, 0)]⟩, 0, 0, false, false⟩,
        [((0, 0), some ⟨[some (0, 0)]⟩)]) := by
  unfold find_best_match
  rw [badPush_candidates k ps hstack hproto]
  rcases hcache with hc | hc <;> subst hc <;> cases cpl <;> decide

theorem badPush_step (st : LoopState) (h : BadInv st) :
    (parse_next_token gBadPush "" st).2 = true ∧
    BadInv (parse_next_token gBadPush "" st).1 := by
  obtain ⟨⟨k, hstack⟩, hproto, hstart, hcache⟩ := h
  have htrim : trimProtoStarts st.ps.stack.length st.ps.proto_starts = [] := by
    rw [hproto]
    rfl
  have hne : st.ps.stack.isEmpty = false := by
    rw [hstack, List.replicate_succ]
    rfl
  have hfb := badPush_find k
    { st.ps with
      proto_starts := trimProtoStarts st.ps.stack.length st.ps.proto_starts }
    (decide (st.non_consuming_push_at = (0, st.ps.stack.length)))
    st.cache hstack htrim hcache
  simp only [parse_next_token, hne, Bool.false_eq_true, if_false, hstart, hfb,
    if_true]
  have hexec : ∀ (c : Context) (ps1 : ParseState),
      (exec_pattern gBadPush ""
        (⟨⟨[some (0, 0)]⟩, 0, 0, false, false⟩ : RegexMatch) c ps1).2 =
      { ps1 with
        stack := ps1.stack ++ [(⟨0, Option.none, Option.none⟩ : StateLevel)] } := by
    intro c ps1
    rfl
  refine ⟨trivial, ⟨k + 1, ?_⟩, ?_, ?_, ?_⟩
  · rw [hexec]
    dsimp only
    rw [hstack, ← List.replicate_succ']
  · rw [hexec]
    dsimp only
    exact htrim
  · rfl
  · right
    rfl

theorem badPush_loop : ∀ (n : Nat) (st : LoopState), BadInv st →
    (parseLoop gBadPush "" n st).2 = false := by
  intro n
  induction n with
  | zero => intro st _; rfl
  | succ n ih =>
    intro st h
    have hs := badPush_step st h
    unfold parseLoop
    simp only [hs.1, if_true]
    exact ih _ hs.2

/-- C3 counterexample: a single context whose only pattern is a
non-consuming push of itself makes the `parse_line` step loop run forever
(the loop guard only breaks pop loops), so no fuel completes it. -/
theorem c3_counterexample :
    ¬ ParseLineTerminates gBadPush (ParseState.new gBadPush) "" := by
  rintro ⟨n, hn⟩
  have h : (parse_line gBadPush n (ParseState.new gBadPush) "").2.2 = false := by
    simp only [parse_line]
    apply badPush_loop
    refine ⟨⟨0, rfl⟩, rfl, rfl, Or.inl rfl⟩
  rw [h] at hn
  cases hn

theorem never_nonempty : NeverEmptyRegex Regex.never := by
  intro line p reg h
  simp [Regex.never] at h

theorem patAt_consumes (g : SyntaxGraph) (hpsc : PushSetConsumes g) (c i : Nat)
    (h : ∃ refs, (g.patAt c i).operation = MatchOperation.push refs ∨
      (g.patAt c i).operation = MatchOperation.set refs) :
    NeverEmptyRegex (g.patAt c i).regex ∧
    ∀ reg s, NeverEmptyRegex ((g.patAt c i).compile_with_refs reg s) := by
  unfold SyntaxGraph.patAt SyntaxGraph.ctx at h ⊢
  rcases getD_mem_or g.contexts c default with hcm | hcd
  · rcases getD_mem_or (g.contexts.getD c default).patterns i default with hmem | hdef
    · exact hpsc _ hcm _ hmem h
    · rw [hdef] at h
      obtain ⟨refs, h | h⟩ := h <;> simp [default] at h
  · rw [hcd] at h
    rw [show (default : Context).patterns = [] from rfl] at h
    rw [show ([] : List MatchPattern).getD i default = default from by
      simp [List.getD]] at h
    obtain ⟨refs, h | h⟩ := h <;> simp [default] at h

theorem parse_next_token_step (g : SyntaxGraph) (line : String)
    (hg : GraphWF g) (hpsc : PushSetConsumes g) (st : LoopState)
    (hc : CacheWF g line st.cache) (hle : st.start ≤ line.length)
    (hcont : (parse_next_token g line st).2 = true) :
    CacheWF g line (parse_next_token g line st).1.cache ∧
    (parse_next_token g line st).1.start ≤ line.length ∧
    (st.start < (parse_next_token g line st).1.start ∨
      ((parse_next_token g line st).1.start = st.start ∧
        (parse_next_token g line st).1.ps.stack.length + 1 =
          st.ps.stack.length)) := by
  have hsound := find_best_match_sound g line hg
    { st.ps with
      proto_starts := trimProtoStarts st.ps.stack.length st.ps.proto_starts }
    st.start st.cache
    (decide (st.non_consuming_push_at = (st.start, st.ps.stack.length))) hc
  simp only [parse_next_token] at hcont ⊢
  cases hse : st.ps.stack.isEmpty with
  | true =>
    simp only [hse, if_true] at hcont
    exact Bool.noConfusion hcont
  | false =>
    simp only [hse, Bool.false_eq_true, if_false] at hcont ⊢
    rcases hfb : find_best_match g line
      { st.ps with
        proto_starts := trimProtoStarts st.ps.stack.length st.ps.proto_starts }
      st.start st.cache
      (decide (st.non_consuming_push_at = (st.start, st.ps.stack.length)))
      with ⟨best, cache1⟩
    rw [hfb] at hsound hcont
    cases best with
    | none =>
      dsimp only at hcont
      exact Bool.noConfusion hcont
    | some m =>
      dsimp only at hcont ⊢
      cases hwl : m.would_loop with
      | true =>
        simp only [hwl, if_true] at hcont ⊢
        by_cases hend : st.start = line.length
        · simp only [if_pos hend] at hcont
          exact Bool.noConfusion hcont
        · simp only [if_neg hend] at hcont ⊢
          exact ⟨hsound.1, by omega, Or.inl (by omega)⟩
      | false =>
        simp only [hwl, Bool.false_eq_true, if_false]
        obtain ⟨⟨p, e2, h1, h2, h3, h4⟩, hds, hprov⟩ := hsound.2 m rfl
        have hpos1 : m.regions.pos0.1 = p := by simp [Region.pos0, h1]
        have hpos2 : m.regions.pos0.2 = e2 := by simp [Region.pos0, h1]
        have hlen : 0 < st.ps.stack.length := by
          rcases hlist : st.ps.stack with _ | ⟨a, t⟩
          · rw [hlist] at hse
            simp at hse
          · simp [hlist]
        refine ⟨hsound.1, by rw [hpos2]; omega, ?_⟩
        by_cases hlt : st.start < e2
        · left
          rw [hpos2]
          exact hlt
        · right
          have hpe : p = st.start := by omega
          have hee : e2 = st.start := by omega
          refine ⟨by rw [hpos2]; omega, ?_⟩
          cases hop : (g.patAt m.context m.pat_index).operation with
          | none =>
            exfalso
            rw [hpos1, hpos2] at hds
            simp only [does_something, hop] at hds
            simp at hds
            omega
          | pop =>
            simp only [exec_pattern]
            simp only [perform_op, hop]
            cases hfwp : m.from_with_prototype with
            | true =>
              simp only [hfwp, if_true]
              rw [List.length_dropLast]
              omega
            | false =>
              simp only [hfwp, Bool.false_eq_true, if_false]
              rw [List.length_dropLast]
              omega
          | push refs =>
            exfalso
            have hcs := patAt_consumes g hpsc m.context m.pat_index
              ⟨refs, Or.inl hop⟩
            rcases hprov with ⟨q, hq⟩ | ⟨rs, q, hq⟩
            · have := hcs.1 line q m.regions hq
              rw [hpos1, hpos2] at this
              omega
            · have := hcs.2 rs.1 rs.2 line q m.regions hq
              rw [hpos1, hpos2] at this
              omega
          | set refs =>
            exfalso
            have hcs := patAt_consumes g hpsc m.context m.pat_index
              ⟨refs, Or.inr hop⟩
            rcases hprov with ⟨q, hq⟩ | ⟨rs, q, hq⟩
            · have := hcs.1 line q m.regions hq
              rw [hpos1, hpos2] at this
              omega
            · have := hcs.2 rs.1 rs.2 line q m.regions hq
              rw [hpos1, hpos2] at this
              omega

theorem loop_terminates (g : SyntaxGraph) (line : String)
    (hg : GraphWF g) (hpsc : PushSetConsumes g) :
    ∀ (d k : Nat) (st : LoopState), CacheWF g line st.cache →
      st.start ≤ line.length → line.length + 1 - st.start ≤ d →
      st.ps.stack.length ≤ k →
      ∃ n, (parseLoop g line n st).2 = true := by
  intro d
  induction d with
  | zero =>
    intro k st _ hle hd _
    omega
  | succ d ihd =>
    intro k
    induction k with
    | zero =>
      intro st _ _ _ hk
      have hemp : st.ps.stack.isEmpty = true := by
        rcases hlist : st.ps.stack with _ | ⟨a, t⟩
        · rfl
        · rw [hlist] at hk
          simp at hk
      refine ⟨1, ?_⟩
      simp only [parseLoop, parse_next_token, hemp, if_true, Bool.false_eq_true,
        if_false]
    | succ k ihk =>
      intro st hcw hle hd hk
      cases hcont : (parse_next_token g line st).2 with
      | false =>
        refine ⟨1, ?_⟩
        simp only [parseLoop, hcont, Bool.false_eq_true, if_false]
      | true =>
        obtain ⟨hcw1, hle1, hstep⟩ :=
          parse_next_token_step g line hg hpsc st hcw hle hcont
        rcases hstep with hstep | ⟨heq, hdec⟩
        · obtain ⟨n, hn⟩ := ihd (parse_next_token g line st).1.ps.stack.length
            (parse_next_token g line st).1 hcw1 hle1 (by omega) (le_refl _)
          refine ⟨n + 1, ?_⟩
          simp only [parseLoop, hcont, if_true]
          exact hn
        · obtain ⟨n, hn⟩ := ihk (parse_next_token g line st).1 hcw1 hle1
            (by omega) (by omega)
          refine ⟨n + 1, ?_⟩
          simp only [parseLoop, hcont, if_true]
          exact hn

/-- C3 (amended): `parse_line` terminates for every line and every
well-formed graph whose `Push`/`Set` patterns always consume at least one
byte when they match; in particular non-consuming pops cannot loop
forever. -/
theorem parse_line_terminates (g : SyntaxGraph) (hg : GraphWF g)
    (hpsc : PushSetConsumes g) (ps : ParseState) (line : String) :
    ParseLineTerminates g ps line := by
  have hcw : CacheWF g line [] := by
    intro c i reg h
    simp [cacheLookup] at h
  obtain ⟨n, hn⟩ := loop_terminates g line hg hpsc (line.length + 1)
    ps.stack.length
    ⟨{ ps with first_line := false }, 0,
      [], (0, 0),
      if ps.first_line then
        (if !(g.ctx (ps.stack.getLastD dfltLevel).context).meta_content_scope.isEmpty
          then [(0, ScopeStackOp.push
            ((g.ctx (ps.stack.getLastD dfltLevel).context).meta_content_scope.headD 0))]
          else [])
      else []⟩
    hcw (Nat.zero_le _) (by omega) (le_refl _)
  exact ⟨n, hn⟩

theorem c3_witness : ParseLineTerminates gOne (ParseState.new gOne) "ab" :=
  parse_line_terminates gOne gOne_wf
    (by
      intro c hc pat hp h
      simp only [gOne, List.mem_singleton] at hc
      subst hc
      simp only [List.mem_singleton] at hp
      subst hp
      obtain ⟨refs, h | h⟩ := h <;> simp [mkPattern] at h)
    (ParseState.new gOne) "ab"


end Syntect
